import Mathlib

/-!
# Verification of the Glances process-monitoring core

Shallow embedding of `src/glances/core/glances_processes.py` (classes
`ProcessTreeNode` and `GlancesProcesses`) together with proofs about the
behaviour claimed by the specification.

Modelling conventions:
* Python dicts that preserve insertion order are association lists
  (`alookup` / `aset`).
* Numeric process statistics (`cpu_percent`, `memory_percent`, ...) are
  modelled as `Int`; CPython floats only matter here through their ordering,
  which `Int` reproduces on the inputs under study.
* psutil calls that can raise are `Except Unit` results carried by the
  `Proc` record; the exception payload is irrelevant to control flow.
* `sorted(...)` in CPython is a stable sort; `List.insertionSort` is the
  stable sort with the same input/output behaviour, instantiated with the
  comparator the source passes (`reverse=` flips the comparator while
  preserving stability, exactly as in CPython).
* Functions whose Python counterparts can propagate an uncaught exception
  return `Except Unit _`.
-/

namespace Glances

set_option linter.unusedVariables false

instance {ε α : Type} [DecidableEq ε] [DecidableEq α] : DecidableEq (Except ε α) := by
  intro a b
  cases a with
  | ok x =>
    cases b with
    | ok y => exact if h : x = y then .isTrue (by rw [h]) else .isFalse (by simp [h])
    | error f => exact .isFalse (by simp)
  | error e =>
    cases b with
    | ok y => exact .isFalse (by simp)
    | error f => exact if h : e = f then .isTrue (by rw [h]) else .isFalse (by simp [h])

/-! ## Ordered dictionaries as association lists -/

/-- Lookup in an insertion-ordered dict (`d[k]` read side / `k in d`). -/
def alookup {κ ν : Type} [DecidableEq κ] : List (κ × ν) → κ → Option ν
  | [], _ => none
  | (k', v') :: rest, k => if k' = k then some v' else alookup rest k

/-- Python dict assignment `d[k] = v`: replace in place, else append. -/
def aset {κ ν : Type} [DecidableEq κ] : List (κ × ν) → κ → ν → List (κ × ν)
  | [], k, v => [(k, v)]
  | (k', v') :: rest, k, v =>
    if k' = k then (k, v) :: rest else (k', v') :: aset rest k v

/-- Python `d[k] += n`: `some` updated dict if the key exists, `none` models
the `KeyError` raised on a missing key. -/
def dIncrBy (m : List (String × Nat)) (k : String) (n : Nat) :
    Option (List (String × Nat)) :=
  (alookup m k).map fun v => aset m k (v + n)

/-- `d[k] += 1` (raises `KeyError` when absent, modelled as `none`). -/
def dIncr (m : List (String × Nat)) (k : String) : Option (List (String × Nat)) :=
  dIncrBy m k 1

/-- `d[k] += 1` at a call site where the key is guaranteed present (the
`'total'` counter created by the reset at the top of `update`).  The `none`
branch is unreachable there; it is modelled as a no-op. -/
def dIncrP (m : List (String × Nat)) (k : String) : List (String × Nat) :=
  match dIncr m k with
  | some m' => m'
  | none => m

/-! ## Platform flags (`glances_globals`) -/

/-- The platform booleans imported from `glances.core.glances_globals`. -/
structure Platform where
  is_linux : Bool
  is_bsd : Bool
  is_mac : Bool
  is_windows : Bool
deriving DecidableEq, Repr

/-- A GNU/Linux platform (used for concrete runs). -/
def linuxPlatform : Platform := ⟨true, false, false, false⟩

/-! ## Process records (the `procstat` dicts built by `__get_process_stats`) -/

/-- The `io_counters` value
`[read_bytes, write_bytes, read_bytes_old, write_bytes_old, io_tag]`. -/
structure IoCounters where
  read_bytes : Int
  write_bytes : Int
  read_bytes_old : Int
  write_bytes_old : Int
  io_tag : Int
deriving DecidableEq, Repr

/-- One `procstat` dict.  `stats` holds the numeric attributes keyed by
name (`cpu_percent`, `memory_percent`, ...); `io_counters` is `none` when
the key was never set (Mac OS path).  `status`/`username` are `none` while
the standard tier has not populated them. -/
structure ProcStat where
  pid : Nat
  name : String := ""
  cmdline : String := ""
  stats : List (String × Int) := []
  io_counters : Option IoCounters := none
  status : Option String := none
  username : Option String := none
  mandatory_stats : Bool := false
  standard_stats : Bool := false
deriving DecidableEq, Repr

/-- `procstat[k]` for a numeric attribute; `none` models the `KeyError`. -/
def statOf (p : ProcStat) (k : String) : Option Int :=
  alookup p.stats k

/-! ## Live process handles (the psutil collaborator) -/

/-- Outcome of `process.parent()`: the call can raise `NoSuchProcess`,
return `None`, or return a handle whose `pid` is `ppid`. -/
inductive PInfo where
  | dead
  | noparent
  | live (ppid : Nat)
deriving DecidableEq, Repr

/-- A live process handle together with the (deterministic) outcomes of the
psutil queries the source performs on it.  `basic` is the
`as_dict(attrs=['cpu_percent', 'memory_percent', 'name'], ad_value='')`
batch: `Except.error` is `NoSuchProcess`, and a `none` component is the `''`
substituted for a per-field failure.  `usernameVal` is the final result of
the username fallback chain of the source (direct lookup, numeric id,
`"?"`), collapsed to its value since no claim depends on the chain's
internals. -/
structure Proc where
  pid : Nat
  name : String := ""
  basic : Except Unit (Option Int × Option Int) := .ok (some 0, some 0)
  cmdlineRes : Except Unit String := .ok ""
  ioRes : Except Unit (Int × Int) := .ok (0, 0)
  statusRes : Except Unit String := .error ()
  usernameVal : String := "?"
  numThreadsRes : Except Unit Nat := .error ()
  gidsReal : Int := 1
  parentInfo : PInfo := .noparent
deriving DecidableEq, Repr

/-! ## `ProcessTreeNode` -/

/-- `ProcessTreeNode.__init__(process, stats, sort_key, root)` state, with
`children` and the flag order of the source.  `children_sorted` and
`reverse_sorting` are not modelled: no claim depends on the lazy-sort
bookkeeping. -/
inductive ProcessTreeNode where
  | mk : Option Proc → Option ProcStat → List ProcessTreeNode →
      Option String → Bool → ProcessTreeNode

/-- Field accessor: `self.process`. -/
def nodeProcess : ProcessTreeNode → Option Proc
  | .mk p _ _ _ _ => p

/-- Field accessor: `self.stats`. -/
def nodeStats : ProcessTreeNode → Option ProcStat
  | .mk _ s _ _ _ => s

/-- Field accessor: `self.children`. -/
def nodeChildren : ProcessTreeNode → List ProcessTreeNode
  | .mk _ _ c _ _ => c

/-- Field accessor: `self.sort_key`. -/
def nodeSortKey : ProcessTreeNode → Option String
  | .mk _ _ _ k _ => k

/-- Field accessor: `self.is_root`. -/
def nodeIsRoot : ProcessTreeNode → Bool
  | .mk _ _ _ _ r => r

/-- The pid of the owned process, if any. -/
def nodePid (n : ProcessTreeNode) : Option Nat :=
  (nodeProcess n).map Proc.pid

/-- `self.process.parent()` outcome for a queued node (queued nodes always
own a process). -/
def nodeParentInfo (n : ProcessTreeNode) : PInfo :=
  match nodeProcess n with
  | some p => p.parentInfo
  | none => .noparent

/-- Does `proc` carry pid `t`? (`self.process.pid == process.pid`). -/
def pidIs (proc : Option Proc) (t : Nat) : Bool :=
  match proc with
  | some p => p.pid == t
  | none => false

/-- `findProcess` viewed as a membership test, in the search order of the
source: a node matches if it is non-root and owns the pid, else its
children are searched depth-first in order, else its right siblings. -/
def containsPidList : List ProcessTreeNode → Nat → Bool
  | [], _ => false
  | .mk proc stats children key is_root :: cs, t =>
    ((!is_root && pidIs proc t) || containsPidList children t) ||
      containsPidList cs t

/-- `tree_root.findProcess(parent).isSome`: search starting at one node. -/
def containsPid (n : ProcessTreeNode) (t : Nat) : Bool :=
  match n with
  | .mk proc stats children key is_root =>
    (!is_root && pidIs proc t) || containsPidList children t

/-- Append `child` to the children of the first node found by
`findProcess` order inside the list (the effect of
`parent_node.children.append(new_node)` on the functional tree). -/
def attachAtList : List ProcessTreeNode → Nat → ProcessTreeNode →
    List ProcessTreeNode
  | [], _, _ => []
  | .mk proc stats children key is_root :: cs, t, child =>
    if !is_root && pidIs proc t then
      .mk proc stats (children ++ [child]) key is_root :: cs
    else if containsPidList children t then
      .mk proc stats (attachAtList children t child) key is_root :: cs
    else
      .mk proc stats children key is_root :: attachAtList cs t child

/-- Attach below the first matching node of the tree rooted at `n`
(which the caller has checked to contain pid `t`). -/
def attachAt (n : ProcessTreeNode) (t : Nat) (child : ProcessTreeNode) :
    ProcessTreeNode :=
  match n with
  | .mk proc stats children key is_root =>
    if !is_root && pidIs proc t then
      .mk proc stats (children ++ [child]) key is_root
    else
      .mk proc stats (attachAtList children t child) key is_root

/-- `tree_root.children.append(node)`. -/
def rootAppend (n : ProcessTreeNode) (child : ProcessTreeNode) :
    ProcessTreeNode :=
  match n with
  | .mk proc stats children key is_root =>
    .mk proc stats (children ++ [child]) key is_root

/-- `ProcessTreeNode(root=True)`. -/
def rootNode : ProcessTreeNode := .mk none none [] none true

/-- First pass of `buildTree`, one record: a fresh node is attached at the
top level when the parent is dead or absent, attached below the parent when
`findProcess` finds it, and deferred to the pending queue otherwise. -/
def firstPassStep (sort_key : Option String)
    (acc : ProcessTreeNode × List ProcessTreeNode) (item : Proc × ProcStat) :
    ProcessTreeNode × List ProcessTreeNode :=
  let new_node : ProcessTreeNode := .mk (some item.1) (some item.2) [] sort_key false
  match item.1.parentInfo with
  | .dead => (rootAppend acc.1 new_node, acc.2)
  | .noparent => (rootAppend acc.1 new_node, acc.2)
  | .live pp =>
    if containsPid acc.1 pp then (attachAt acc.1 pp new_node, acc.2)
    else (acc.1, acc.2 ++ [new_node])

/-- One iteration of the pending-queue drain loop of `buildTree` on the
dequeued node. -/
def drainStep (tree_root : ProcessTreeNode) (node : ProcessTreeNode)
    (rest : List ProcessTreeNode) : ProcessTreeNode × List ProcessTreeNode :=
  match nodeParentInfo node with
  | .dead => (rootAppend tree_root node, rest)
  | .noparent =>
    -- `findProcess(None)` dereferences `process.pid` of `None`: with a
    -- non-empty tree CPython would raise here.  The branch is unreachable
    -- because only nodes whose `parent()` returned a live handle are ever
    -- queued; it is modelled as a re-enqueue.
    (tree_root, rest ++ [node])
  | .live pp =>
    if containsPid tree_root pp then (attachAt tree_root pp node, rest)
    else (tree_root, rest ++ [node])

/-- The `while nodes_to_add_last:` loop, step-indexed: `none` means the
loop has not finished within `fuel` iterations (the source has no bound at
all and simply keeps running). -/
def drainRun (fuel : Nat) (tree_root : ProcessTreeNode)
    (pending : List ProcessTreeNode) : Option ProcessTreeNode :=
  match pending with
  | [] => some tree_root
  | node :: rest =>
    match fuel with
    | 0 => none
    | fuel' + 1 =>
      let s := drainStep tree_root node rest
      drainRun fuel' s.1 s.2

/-- `ProcessTreeNode.buildTree(process_dict, sort_key)`, step-indexed via
`fuel` for the drain loop. -/
def buildTree (fuel : Nat) (process_dict : List (Proc × ProcStat))
    (sort_key : Option String) : Option ProcessTreeNode :=
  let acc := process_dict.foldl (firstPassStep sort_key) (rootNode, [])
  drainRun fuel acc.1 acc.2

/-- `∃ fuel` termination of the drain loop on a given input. -/
def buildTreeTerminatesOn (process_dict : List (Proc × ProcStat))
    (sort_key : Option String) : Prop :=
  ∃ fuel, (buildTree fuel process_dict sort_key).isSome

/-- The pids of the input records. -/
def inputPids (process_dict : List (Proc × ProcStat)) : List Nat :=
  process_dict.map fun item => item.1.pid

/-- Is there a direct child of `n` owning pid `t`? -/
def topHasPid (n : ProcessTreeNode) (t : Nat) : Bool :=
  (nodeChildren n).any fun c => nodePid c == some t

/-- `sys.maxsize` on a 64-bit CPython. -/
def sysMaxsize : Int := 2 ^ 63 - 1

/-- `current_node.stats[self.sort_key]` during the resource-usage sum.
Both `none` fallbacks model branches the source never reaches on the trees
it builds (a summed node always carries stats, and the sum is only taken
with the key its stats contain); they default to `0`. -/
def nodeStatVal (key : Option String) (n : ProcessTreeNode) : Int :=
  match nodeStats n, key with
  | some ps, some k => (statOf ps k).getD 0
  | _, _ => 0

mutual

/-- Number of nodes in the subtree rooted at a node (termination measure). -/
def nodeWeight : ProcessTreeNode → Nat
  | .mk _ _ c _ _ => 1 + nodeListWeight c

/-- Number of nodes in a forest (termination measure). -/
def nodeListWeight : List ProcessTreeNode → Nat
  | [] => 0
  | n :: rest => nodeWeight n + nodeListWeight rest

end

/-- The `while nodes_to_sum:` loop of `getRessourceUsage`:
`deque.pop()` removes the rightmost element and `extend` appends the
children on the right. -/
def sumWork (key : Option String) (work : List ProcessTreeNode) : Int :=
  match h : work.getLast? with
  | none => 0
  | some current =>
    nodeStatVal key current + sumWork key (work.dropLast ++ nodeChildren current)
termination_by nodeListWeight work
decreasing_by
  have happ : ∀ a b : List ProcessTreeNode,
      nodeListWeight (a ++ b) = nodeListWeight a + nodeListWeight b := by
    intro a b
    induction a with
    | nil => simp [nodeListWeight]
    | cons x xs ih => simp [nodeListWeight, ih]; omega
  have hch : ∀ n : ProcessTreeNode,
      nodeWeight n = 1 + nodeListWeight (nodeChildren n) := by
    intro n
    cases n with
    | mk p s c k r => simp [nodeWeight, nodeChildren]
  have hsplit : work = work.dropLast ++ [current] := by
    rcases List.getLast?_eq_some_iff.mp h with ⟨ys, hys⟩
    rw [hys]; simp
  have h2 : nodeListWeight work = nodeListWeight work.dropLast + nodeWeight current := by
    conv_lhs => rw [hsplit]
    rw [happ]; simp [nodeListWeight]
  rw [happ, h2, hch current]
  omega

/-- Spec-side recursive descendant sum (depth-first accumulation): the sum
of the key's value over every node of the forest and all descendants. -/
def subtreeSumList (key : Option String) : List ProcessTreeNode → Int
  | [] => 0
  | .mk proc stats children k r :: cs =>
    nodeStatVal key (.mk proc stats children k r) +
      subtreeSumList key children + subtreeSumList key cs

/-- Spec-side aggregate usage of a single node: its own value plus the sum
over its entire descendant subtree. -/
def subtreeSum (key : Option String) (n : ProcessTreeNode) : Int :=
  nodeStatVal key n + subtreeSumList key (nodeChildren n)

/-- `ProcessTreeNode.getRessourceUsage`. -/
def getRessourceUsage (n : ProcessTreeNode) : Int :=
  if nodeIsRoot n then sysMaxsize
  else sumWork (nodeSortKey n) [n]

/-! ## `GlancesProcesses` state -/

/-- A compiled regular expression, modelled extensionally:
`r value = true` iff `r.match(value)` is not `None`. -/
def RegexMatcher : Type := String → Bool

/-- The `processcount` dict as (re-)initialized by `__init__` and at the
top of every `update`. -/
def initialProcessCount : List (String × Nat) :=
  [("total", 0), ("running", 0), ("sleeping", 0), ("thread", 0)]

/-- The mutable attributes of a `GlancesProcesses` instance that the
claims touch.  `io_old` maps pid to the previous `[read, write]` pair;
the two caches map pid to the cached string. -/
structure PState where
  processlist : List ProcStat := []
  processcount : List (String × Nat) := initialProcessCount
  disable_tag : Bool := false
  process_filter : Option String := none
  process_filter_re : Option RegexMatcher := none
  processmanualsort : Option String := none
  processautosort : Option String := some "cpu_percent"
  max_processes : Option Nat := none
  no_kernel_threads : Bool := false
  process_tree : Option ProcessTreeNode := none
  io_old : List (Nat × (Int × Int)) := []
  username_cache : List (Nat × String) := []
  cmdline_cache : List (Nat × String) := []

/-- `GlancesProcesses.set_process_filter(value)`: stores the raw filter
string, then compiles it; a compilation failure is logged and leaves
`process_filter_re` as `None` (the `except` branch).  `compile` is the
`re.compile` collaborator: `none` models a pattern that fails to
compile. -/
def set_process_filter (compile : String → Option RegexMatcher)
    (st : PState) (value : Option String) : PState :=
  match value with
  | some v => { st with process_filter := some v, process_filter_re := compile v }
  | none => { st with process_filter := none, process_filter_re := none }

/-- `GlancesProcesses.get_process_filter`. -/
def get_process_filter (st : PState) : Option String :=
  st.process_filter

/-- `GlancesProcesses.get_process_filter_re`. -/
def get_process_filter_re (st : PState) : Option RegexMatcher :=
  st.process_filter_re

/-- `GlancesProcesses.is_filtered(value)`.  When a filter string is set
but no compiled expression exists, `self.get_process_filter_re().match`
dereferences `None`: the `AttributeError` is modelled as `.error ()`. -/
def is_filtered (st : PState) (value : String) : Except Unit Bool :=
  match get_process_filter st with
  | none => .ok false
  | some _ =>
    match get_process_filter_re st with
    | some r => .ok (!r value)
    | none => .error ()

/-- `GlancesProcesses.getsortkey`: manual key if set, else automatic. -/
def getsortkey (st : PState) : Option String :=
  match st.processmanualsort with
  | some k => some k
  | none => st.processautosort

/-- `GlancesProcesses.getlist` (its `sortedby` parameter is unused in the
source). -/
def getlist (st : PState) : List ProcStat :=
  st.processlist

/-- `GlancesProcesses.getcount`. -/
def getcount (st : PState) : List (String × Nat) :=
  st.processcount

/-! ## `__get_process_stats` (mandatory and standard tiers)

The extended tier (lines 383-463 of the source) is never requested by the
call sites modelled here (`update` passes `extended_stats=False` on the
tree path and the claims do not touch the flat-with-cap path), so it is
not modelled. -/

/-- The command-line fetch with its internal cache: a miss joins
`proc.cmdline()`, caching `""` on any failure (issue #391 patch). -/
def fetchCmdline (st : PState) (proc : Proc) : PState × String :=
  match alookup st.cmdline_cache proc.pid with
  | some c => (st, c)
  | none =>
    let c := match proc.cmdlineRes with
      | .ok s => s
      | .error _ => ""
    ({ st with cmdline_cache := aset st.cmdline_cache proc.pid c }, c)

/-- The process IO fetch: no `io_counters` key at all on Mac OS; zeros
with `io_tag = 0` when access is denied or the process died; otherwise
the new counters with the saved previous pair (defaulting to `[0, 0]`)
and `io_tag = 1`, saving the new pair. -/
def fetchIo (pf : Platform) (st : PState) (proc : Proc) :
    PState × Option IoCounters :=
  if pf.is_mac then (st, none)
  else
    match proc.ioRes with
    | .error _ => (st, some ⟨0, 0, 0, 0, 0⟩)
    | .ok rw =>
      let old := (alookup st.io_old proc.pid).getD (0, 0)
      ({ st with io_old := aset st.io_old proc.pid rw },
        some ⟨rw.1, rw.2, old.1, old.2, 1⟩)

/-- The username fetch with its internal cache: a miss stores the result
of the fallback chain (collapsed into `proc.usernameVal`). -/
def fetchUsername (st : PState) (proc : Proc) : PState × String :=
  match alookup st.username_cache proc.pid with
  | some u => (st, u)
  | none =>
    ({ st with username_cache := aset st.username_cache proc.pid proc.usernameVal },
      proc.usernameVal)

/-- Python `str(status)[:1].upper()`. -/
def statusAbbrev (s : String) : String :=
  String.mk ((s.data.take 1).map Char.toUpper)

/-- `GlancesProcesses.__get_process_stats(proc, mandatory_stats,
standard_stats)`.  Returns the (cache-) updated state and the produced
record, or `none` when the record is dropped (mandatory cpu/mem
unavailable).  On the mandatory tier, a `NoSuchProcess` from the batched
fetch (issue #414) or an `''` in `cpu_percent`/`memory_percent` drops the
record before any cache write.  On the standard tier, a `NoSuchProcess`
from the status batch keeps the record and merely skips those fields;
on success the stored `status` is `str(status)[:1].upper()`.  `nice`,
`memory_info` and `cpu_times` are carried along by the same batch and are
not modelled (no claim mentions them). -/
def getProcessStats (pf : Platform) (st : PState) (proc : Proc)
    (mandatory_stats standard_stats : Bool) : PState × Option ProcStat :=
  let ps0 : ProcStat := { pid := proc.pid }
  let step1 : Option (PState × ProcStat) :=
    if mandatory_stats then
      match proc.basic with
      | .error _ => none
      | .ok cm =>
        if cm.1.isNone || cm.2.isNone then none
        else
          let r1 := fetchCmdline st proc
          let r2 := fetchIo pf r1.1 proc
          some (r2.1, { ps0 with
            mandatory_stats := true
            name := proc.name
            cmdline := r1.2
            stats := [("cpu_percent", cm.1.getD 0), ("memory_percent", cm.2.getD 0)]
            io_counters := r2.2 })
    else some (st, ps0)
  match step1 with
  | none => (st, none)
  | some (st1, ps1) =>
    if standard_stats then
      let r3 := fetchUsername st1 proc
      let ps2 := { ps1 with standard_stats := true, username := some r3.2 }
      match proc.statusRes with
      | .error _ => (r3.1, some ps2)
      | .ok s => (r3.1, some { ps2 with status := some (statusAbbrev s) })
    else (st1, some ps1)

/-! ## The per-process bookkeeping of `update` (lines 484-525) -/

/-- Idle/system-process exclusion by name (BSD `idle`, Windows
`System Idle Process`, Mac `kernel_task`). -/
def idleExcluded (pf : Platform) (name : String) : Bool :=
  (pf.is_bsd && name == "idle") ||
    (pf.is_windows && name == "System Idle Process") ||
    (pf.is_mac && name == "kernel_task")

/-- The status/total bookkeeping on the `processcount` dict:
`try: processcount[str(proc.status())] += 1` — a `NoSuchProcess` from
`proc.status()` is passed over; a `KeyError` creates the per-status key
with value 1 (and `total` is *not* incremented on that path); only when
the increment succeeded does the `else` clause bump `total`. -/
def statusCountStep (m : List (String × Nat)) (proc : Proc) :
    List (String × Nat) :=
  match proc.statusRes with
  | .error _ => m
  | .ok s =>
    match dIncr m s with
    | some m' => dIncrP m' "total"
    | none => aset m s 1

/-- `try: processcount['thread'] += proc.num_threads() except: pass` —
the bare `except` swallows every failure, including a missing key. -/
def threadCountStep (m : List (String × Nat)) (proc : Proc) :
    List (String × Nat) :=
  match proc.numThreadsRes with
  | .error _ => m
  | .ok n =>
    match dIncrBy m "thread" n with
    | some m' => m'
    | none => m

/-- The status/total bookkeeping applied to the instance state. -/
def countStatus (st : PState) (proc : Proc) : PState :=
  { st with processcount := statusCountStep st.processcount proc }

/-- The thread-count bookkeeping applied to the instance state. -/
def countThread (st : PState) (proc : Proc) : PState :=
  { st with processcount := threadCountStep st.processcount proc }

/-- The body of the `for proc in psutil.process_iter():` loop for one
process, threading the state and the `processdict` accumulator.  An
uncaught exception (the broken-filter `AttributeError` of `is_filtered`)
aborts the whole update. -/
def scanStep (pf : Platform) (acc : PState × List (Proc × ProcStat))
    (proc : Proc) : Except Unit (PState × List (Proc × ProcStat)) :=
  let st := acc.1
  if st.no_kernel_threads && !pf.is_windows && proc.gidsReal == 0 then
    .ok acc
  else
    let r := getProcessStats pf st proc true st.max_processes.isNone
    match r.2 with
    | none => .ok (r.1, acc.2)
    | some s =>
      -- `self.is_filtered(s['cmdline']) and self.is_filtered(s['name'])`
      -- with Python's short-circuit `and`; an uncaught exception from
      -- either call propagates.
      match is_filtered r.1 s.cmdline with
      | .error e => .error e
      | .ok fcmd =>
        match if fcmd then is_filtered r.1 s.name else .ok false with
        | .error e => .error e
        | .ok fboth =>
          if fboth then .ok (r.1, acc.2)
          else
            let processdict := acc.2 ++ [(proc, s)]
            if idleExcluded pf s.name then .ok (r.1, processdict)
            else .ok (countThread (countStatus r.1 proc) proc, processdict)

/-- The whole enumeration loop over `psutil.process_iter()`. -/
def scanLoop (pf : Platform) (procs : List Proc)
    (acc : PState × List (Proc × ProcStat)) :
    Except Unit (PState × List (Proc × ProcStat)) :=
  match procs with
  | [] => .ok acc
  | p :: rest =>
    match scanStep pf acc p with
    | .error e => .error e
    | .ok acc' => scanLoop pf rest acc'

/-- `GlancesProcesses.update`, lines 467-525: reset list and counts, the
disable-tag early return, and the enumeration loop building
`processdict` (returned alongside the state so its size can be spoken
about: with `PROCESS_TREE` set the cycle's output is the tree built from
exactly these records).  The later half of `update` is modelled
separately (`buildTree`); the cache-expiry epilogue touches only the two
caches. -/
def update (pf : Platform) (procs : List Proc) (st : PState) :
    Except Unit (PState × List (Proc × ProcStat)) :=
  let st0 := { st with processlist := [], processcount := initialProcessCount }
  if st0.disable_tag then .ok (st0, [])
  else scanLoop pf procs (st0, [])

/-! ## The sort engine (`getsortlist`) -/

/-- CPython `sorted(l, key=key, reverse=rev)`: the stable sort by the key,
with `reverse=True` flipping the comparator while keeping stability. -/
def pySort {β : Type} [LinearOrder β] (l : List ProcStat)
    (key : ProcStat → β) (rev : Bool) : List ProcStat :=
  if rev then l.insertionSort (fun a b => key b ≤ key a)
  else l.insertionSort (fun a b => key a ≤ key b)

/-- `sorted` with a key function that can raise on some element: the
whole call raises (no partial result). -/
def pySortOpt (l : List ProcStat) (key : ProcStat → Option Int) (rev : Bool) :
    Except Unit (List ProcStat) :=
  if ∀ p ∈ l, (key p).isSome then .ok (pySort l (fun p => (key p).getD 0) rev)
  else .error ()

/-- The combined IO throughput key of the `io_counters` sort:
`p[sortedby][0] - p[sortedby][2] + p[sortedby][1] - p[sortedby][3]`;
`none` when the record has no `io_counters` key (the `KeyError` the
`except Exception` branch catches). -/
def ioThroughput (p : ProcStat) : Option Int :=
  p.io_counters.map fun io =>
    io.read_bytes - io.read_bytes_old + io.write_bytes - io.write_bytes_old

/-- `GlancesProcesses.getsortlist(sortedby)`: `None` returns the stored
list unsorted; `'name'` sorts ascending, every other key descending;
`'io_counters'` sorts by combined throughput falling back to
`cpu_percent` for the *entire* list if the computation fails anywhere;
the sorted list is stored back into `processlist` and returned.  A
missing sort key on the plain path (or a missing `cpu_percent` during
the fallback) is an uncaught `KeyError`, modelled as `.error`. -/
def getsortlist (st : PState) (sortedby : Option String) :
    Except Unit (PState × List ProcStat) :=
  match sortedby with
  | none => .ok (st, st.processlist)
  | some key =>
    let sortedreverse : Bool := if key = "name" then false else true
    let sortRes : Except Unit (List ProcStat) :=
      if key = "io_counters" then
        match pySortOpt st.processlist ioThroughput sortedreverse with
        | .ok l => .ok l
        | .error _ =>
          pySortOpt st.processlist (fun p => statOf p "cpu_percent") sortedreverse
      else if key = "name" then
        .ok (pySort st.processlist (fun p => p.name) sortedreverse)
      else
        pySortOpt st.processlist (fun p => statOf p key) sortedreverse
    sortRes.map fun listsorted => ({ st with processlist := listsorted }, listsorted)

/-! ## Spec-side characterizations (used to state the claims) -/

/-- Spec-side: descending order of a numeric key. -/
def SortedDescBy (key : ProcStat → Int) (l : List ProcStat) : Prop :=
  l.Sorted fun a b => key b ≤ key a

/-- Spec-side: ascending lexical order of the name field. -/
def SortedAscByName (l : List ProcStat) : Prop :=
  l.Sorted fun a b => a.name ≤ b.name

/-- Spec-side: the status strings the counting loop sees, read off the
produced `processdict` in order: one entry per retained record that is not
idle-excluded and whose status query succeeded. -/
def eventStatuses (pf : Platform) (dict : List (Proc × ProcStat)) :
    List String :=
  dict.filterMap fun item =>
    if idleExcluded pf item.2.name then none
    else item.1.statusRes.toOption

/-- Spec-side: how many of the status events land in `total`, given the
set of status strings that already have a counter: an event whose status
is already a key counts one; a novel status only creates its key. -/
def specTotalFold (seen : List String) : List String → Nat
  | [] => 0
  | s :: rest =>
    if s ∈ seen then 1 + specTotalFold seen rest
    else specTotalFold (s :: seen) rest

/-- The status keys present in `processcount` right after the reset,
`'total'` excluded. -/
def initialSeen : List String := ["running", "sleeping", "thread"]

/-- Spec-side invariant tying the `processcount` dict to the spec-side
fold state: `total` holds `t`, and the non-`total` keys present are
exactly `seen`. -/
def CountInv (m : List (String × Nat)) (seen : List String) (t : Nat) : Prop :=
  alookup m "total" = some t ∧
  ∀ s : String, s ≠ "total" → ((alookup m s).isSome ↔ s ∈ seen)

/-! ## Concrete inputs for the witnesses and counterexamples -/

/-- A live process that passes every check, with status `disk-sleep` (a
status psutil reports and the reset map has no counter for). -/
def procDiskSleep : Proc :=
  { pid := 1, name := "x", basic := .ok (some 10, some 5),
    cmdlineRes := .ok "x", ioRes := .ok (0, 0),
    statusRes := .ok "disk-sleep", numThreadsRes := .error (),
    gidsReal := 1, parentInfo := .noparent }

/-- A live process with the pre-counted status `running`. -/
def procRunning : Proc :=
  { pid := 2, name := "y", basic := .ok (some 20, some 6),
    cmdlineRes := .ok "y", ioRes := .ok (0, 0),
    statusRes := .ok "running", numThreadsRes := .error (),
    gidsReal := 1, parentInfo := .noparent }

/-- A second `disk-sleep` process (same status seen again). -/
def procDiskSleep2 : Proc :=
  { pid := 4, name := "z", basic := .ok (some 30, some 7),
    cmdlineRes := .ok "z", ioRes := .ok (0, 0),
    statusRes := .ok "disk-sleep", numThreadsRes := .error (),
    gidsReal := 1, parentInfo := .noparent }

/-- A record stored in the process list before a disabled update. -/
def staleRecord : ProcStat :=
  { pid := 7, name := "old", stats := [("cpu_percent", 1)] }

/-- A state carrying a previous cycle's list and tree, with collection
disabled. -/
def disabledState : PState :=
  { processlist := [staleRecord], disable_tag := true,
    process_tree := some rootNode }

/-- An input record whose live parent (pid 99) exists in the OS but has
no record in the input set. -/
def procOrphan : Proc := { pid := 3, parentInfo := .live 99 }

/-- Its stats record. -/
def statOrphan : ProcStat := { pid := 3 }

/-- The input set of the non-termination counterexample. -/
def orphanInput : List (Proc × ProcStat) := [(procOrphan, statOrphan)]

/-- Scenario record A: `pid=1`, no parent. -/
def procA : Proc := { pid := 1, name := "A", parentInfo := .noparent }

/-- Scenario record B: `pid=2`, parent pid 1. -/
def procB : Proc := { pid := 2, name := "B", parentInfo := .live 1 }

/-- Scenario record C: `pid=3`, parent pid 99 which no longer exists
(the parent query raises `NoSuchProcess`). -/
def procC : Proc := { pid := 3, name := "C", parentInfo := .dead }

/-- Stats for A. -/
def statA : ProcStat := { pid := 1, name := "A" }

/-- Stats for B. -/
def statB : ProcStat := { pid := 2, name := "B" }

/-- Stats for C. -/
def statC : ProcStat := { pid := 3, name := "C" }

/-- The scenario input `{A(pid=1), B(pid=2, parent=1), C(pid=3, parent=99)}`. -/
def scenarioInput : List (Proc × ProcStat) := [(procA, statA), (procB, statB), (procC, statC)]

/-- The tree the scenario must produce: A owning B, and C top-level. -/
def scenarioExpected : ProcessTreeNode :=
  .mk none none
    [.mk (some procA) (some statA)
        [.mk (some procB) (some statB) [] (some "cpu_percent") false]
        (some "cpu_percent") false,
      .mk (some procC) (some statC) [] (some "cpu_percent") false]
    none true

/-- A record with `io_counters` and a cpu value. -/
def ioRecord (pid : Nat) (cpu : Int) (r w ro wo : Int) : ProcStat :=
  { pid := pid, name := "p", stats := [("cpu_percent", cpu)],
    io_counters := some ⟨r, w, ro, wo, 1⟩ }

/-- A record missing the `io_counters` key (as produced on Mac OS). -/
def noIoRecord (pid : Nat) (cpu : Int) : ProcStat :=
  { pid := pid, name := "q", stats := [("cpu_percent", cpu)] }

/-- Ten records, one of which (pid 4) has no `io_counters` key. -/
def tenRecords : List ProcStat :=
  [ioRecord 0 3 10 0 0 0, ioRecord 1 9 0 0 0 0, ioRecord 2 1 5 5 0 0,
    ioRecord 3 12 1 1 1 1, noIoRecord 4 7, ioRecord 5 2 9 9 9 9,
    ioRecord 6 11 3 4 0 0, ioRecord 7 5 0 0 0 0, ioRecord 8 8 2 2 2 2,
    ioRecord 9 4 6 0 6 0]

/-- A state holding the ten records. -/
def tenState : PState := { processlist := tenRecords }

/-- Three records for the plain sorting witness. -/
def threeRecords : List ProcStat :=
  [{ pid := 1, name := "beta", stats := [("cpu_percent", 2)] },
    { pid := 2, name := "alpha", stats := [("cpu_percent", 9)] },
    { pid := 3, name := "gamma", stats := [("cpu_percent", 5)] }]

/-- A state holding the three records. -/
def threeState : PState := { processlist := threeRecords }

/-- A tree node with two children carrying sort-key values 5 and 7 and no
grandchildren, whose own value is 3. -/
def aggregateNode : ProcessTreeNode :=
  .mk (some { pid := 9 }) (some { pid := 9, stats := [("cpu_percent", 3)] })
    [.mk (some { pid := 10 }) (some { pid := 10, stats := [("cpu_percent", 5)] })
        [] (some "cpu_percent") false,
      .mk (some { pid := 11 }) (some { pid := 11, stats := [("cpu_percent", 7)] })
        [] (some "cpu_percent") false]
    (some "cpu_percent") false

/-- A compile collaborator on which every pattern fails to compile. -/
def failingCompile : String → Option RegexMatcher := fun _ => none

/-- The three records sorted descending by `cpu_percent`. -/
def cpuSortedThree : List ProcStat :=
  [{ pid := 2, name := "alpha", stats := [("cpu_percent", 9)] },
    { pid := 3, name := "gamma", stats := [("cpu_percent", 5)] },
    { pid := 1, name := "beta", stats := [("cpu_percent", 2)] }]

/-- The three records sorted ascending by name. -/
def nameSortedThree : List ProcStat :=
  [{ pid := 2, name := "alpha", stats := [("cpu_percent", 9)] },
    { pid := 1, name := "beta", stats := [("cpu_percent", 2)] },
    { pid := 3, name := "gamma", stats := [("cpu_percent", 5)] }]

/-- Spec-side: the owned pid (if any) belongs to `S`. -/
def pidOkay (S : List Nat) (proc : Option Proc) : Bool :=
  match proc with
  | some q => decide (q.pid ∈ S)
  | none => true

/-- Spec-side: all process pids inside the forest belong to `S`. -/
def pidsInList (S : List Nat) : List ProcessTreeNode → Bool
  | [] => true
  | .mk proc stats children key is_root :: cs =>
    (pidOkay S proc && pidsInList S children) && pidsInList S cs

/-- Spec-side: all process pids inside the tree belong to `S`. -/
def pidsIn (S : List Nat) (n : ProcessTreeNode) : Bool :=
  pidsInList S [n]

/-- Spec-side: a pending node whose `parent()` returns a live handle whose
pid has no record in the input set — exactly the nodes the drain loop can
never attach. -/
def BadLive (S : List Nat) (n : ProcessTreeNode) : Prop :=
  ∃ pp, nodeParentInfo n = .live pp ∧ pp ∉ S

/-- The node the first pass defers for the orphan input. -/
def orphanNode : ProcessTreeNode :=
  .mk (some procOrphan) (some statOrphan) [] (some "cpu_percent") false

/-- The record `update` builds for `procRunning`. -/
def psRunningRecord : ProcStat :=
  { pid := 2, name := "y", cmdline := "y",
    stats := [("cpu_percent", 20), ("memory_percent", 6)],
    io_counters := some ⟨0, 0, 0, 0, 1⟩,
    status := some (statusAbbrev "running"), username := some "?",
    mandatory_stats := true, standard_stats := true }

/-- The state after `update` on the single-process input `[procRunning]`. -/
def stAfterRunning : PState :=
  { processcount :=
      [("total", 1), ("running", 1), ("sleeping", 0), ("thread", 0)],
    io_old := [(2, (0, 0))], username_cache := [(2, "?")],
    cmdline_cache := [(2, "y")] }

/-! # Helper lemmas -/

theorem alookup_aset_self {κ ν : Type} [DecidableEq κ]
    (m : List (κ × ν)) (k : κ) (v : ν) : alookup (aset m k v) k = some v := by
  induction m with
  | nil => simp [aset, alookup]
  | cons x rest ih =>
    obtain ⟨k', v'⟩ := x
    by_cases h : k' = k
    · simp [aset, h, alookup]
    · simp [aset, h, alookup, ih]

theorem alookup_aset_ne {κ ν : Type} [DecidableEq κ]
    (m : List (κ × ν)) (k : κ) (v : ν) (k' : κ) (h : k' ≠ k) :
    alookup (aset m k v) k' = alookup m k' := by
  have hne : ¬k = k' := fun hh => h hh.symm
  induction m with
  | nil => simp [aset, alookup, hne]
  | cons x rest ih =>
    obtain ⟨a, b⟩ := x
    by_cases ha : a = k
    · subst ha
      simp [aset, alookup, hne]
    · simp [aset, ha, alookup, ih]

theorem exceptMap_ok {α β : Type} (f : α → β) (e : Except Unit α) (y : β)
    (h : e.map f = .ok y) : ∃ x, e = .ok x ∧ y = f x := by
  cases e with
  | ok x =>
    refine ⟨x, rfl, ?_⟩
    simpa [Except.map] using h.symm
  | error _ => simp [Except.map] at h

/-! # C2: a filter pattern that fails to compile -/

/-- C2 (code_bug evidence): after `set_process_filter` is called with a
string that fails to compile, `is_filtered` does not behave as if no
filter were set — it raises (`AttributeError`: `process_filter` is still
set while `process_filter_re` is `None`), for every input value. -/
theorem is_filtered_after_failed_compile
    (compile : String → Option RegexMatcher) (st : PState) (p v : String)
    (h : compile p = none) :
    is_filtered (set_process_filter compile st (some p)) v = .error () := by
  simp [is_filtered, set_process_filter, get_process_filter,
    get_process_filter_re, h]

/-- Witness: the concrete failing run. -/
theorem is_filtered_after_failed_compile_witness :
    failingCompile "(" = none ∧
      is_filtered (set_process_filter failingCompile {} (some "(")) "python" =
        .error () :=
  ⟨rfl, is_filtered_after_failed_compile failingCompile {} "(" "python" rfl⟩

/-! # C3: update with the disable tag set -/

/-- C3 counterexample: with the disable tag set, `update` does *not* leave
the previously produced process list unchanged — the reset at the top of
`update` clears it before the early return. -/
theorem update_disabled_clears_processlist :
    (update linuxPlatform [] disabledState).map (fun r => r.1.processlist) =
        .ok [] ∧
      disabledState.processlist ≠ [] := by
  exact ⟨rfl, by decide⟩

/-- C3 amended: with the disable tag set, `update` resets the counts,
*clears* the process list to empty, performs no enumeration (the result
does not depend on `procs`), and leaves everything else — in particular
the previously built process tree — untouched. -/
theorem update_disabled_behavior (pf : Platform) (procs : List Proc)
    (st : PState) (h : st.disable_tag = true) :
    update pf procs st =
      .ok ({ st with processlist := [], processcount := initialProcessCount },
        []) := by
  simp [update, h]

/-- Witness: the concrete disabled run (enumeration input is ignored). -/
theorem update_disabled_behavior_witness :
    disabledState.disable_tag = true ∧
      update linuxPlatform [procRunning] disabledState =
        .ok ({ disabledState with
            processlist := [], processcount := initialProcessCount }, []) :=
  ⟨rfl, update_disabled_behavior linuxPlatform [procRunning] disabledState rfl⟩

/-! # C10: getsortlist mutates the stored list -/

/-- C10: `getsortlist` with a non-`None` key stores the sorted sequence
back into `processlist` (so `getlist` afterwards returns it), and with
`None` returns the stored list with no state change and no sort. -/
theorem getsortlist_mutates_stored_list (st : PState) :
    getsortlist st none = .ok (st, st.processlist) ∧
    (∀ k st' out, getsortlist st (some k) = .ok (st', out) →
      st' = { st with processlist := out } ∧ getlist st' = out) := by
  refine ⟨rfl, ?_⟩
  intro k st' out h
  simp only [getsortlist] at h
  obtain ⟨l, he, hy⟩ := exceptMap_ok _ _ _ h
  obtain ⟨h1, h2⟩ := Prod.mk.injEq .. ▸ hy
  subst h2
  constructor
  · exact h1
  · rw [h1]
    rfl

/-! # C7: getRessourceUsage -/

theorem nodeListWeight_append (a b : List ProcessTreeNode) :
    nodeListWeight (a ++ b) = nodeListWeight a + nodeListWeight b := by
  induction a with
  | nil => simp [nodeListWeight]
  | cons x xs ih => simp [nodeListWeight, ih]; omega

theorem subtreeSumList_append (key : Option String)
    (a b : List ProcessTreeNode) :
    subtreeSumList key (a ++ b) = subtreeSumList key a + subtreeSumList key b := by
  induction a with
  | nil => simp [subtreeSumList]
  | cons x xs ih =>
    cases x with
    | mk p s c k r =>
      simp [subtreeSumList, ih]
      ring

theorem subtreeSumList_singleton (key : Option String) (n : ProcessTreeNode) :
    subtreeSumList key [n] =
      nodeStatVal key n + subtreeSumList key (nodeChildren n) := by
  cases n with
  | mk p s c k r => simp [subtreeSumList, nodeChildren]

theorem nodeWeight_eq (n : ProcessTreeNode) :
    nodeWeight n = 1 + nodeListWeight (nodeChildren n) := by
  cases n with
  | mk p s c k r => simp [nodeWeight, nodeChildren]

theorem nodeListWeight_singleton (n : ProcessTreeNode) :
    nodeListWeight [n] = nodeWeight n := by
  simp [nodeListWeight]

/-- The LIFO worklist sum of the source computes the same value as the
spec's depth-first recursive accumulation. -/
theorem sumWork_eq_subtreeSumList (key : Option String) :
    ∀ N work, nodeListWeight work ≤ N →
      sumWork key work = subtreeSumList key work := by
  intro N
  induction N with
  | zero =>
    intro work hw
    cases work with
    | nil => simp [sumWork, subtreeSumList]
    | cons n rest =>
      exfalso
      have h1 := nodeWeight_eq n
      simp [nodeListWeight] at hw
      omega
  | succ N ih =>
    intro work hw
    rw [sumWork]
    split
    · rename_i heq
      simp [List.getLast?_eq_none_iff.mp heq, subtreeSumList]
    · rename_i current h
      have hsplit : work = work.dropLast ++ [current] := by
        rcases List.getLast?_eq_some_iff.mp h with ⟨ys, hys⟩
        rw [hys]; simp
      have hwt : nodeListWeight (work.dropLast ++ nodeChildren current) ≤ N := by
        have e1 : nodeListWeight work =
            nodeListWeight work.dropLast + nodeWeight current := by
          conv_lhs => rw [hsplit]
          rw [nodeListWeight_append, nodeListWeight_singleton]
        have e2 := nodeWeight_eq current
        rw [nodeListWeight_append]
        omega
      rw [ih _ hwt, subtreeSumList_append]
      conv_rhs => rw [hsplit]
      rw [subtreeSumList_append, subtreeSumList_singleton]
      ring

/-- C7: `getRessourceUsage` returns `sys.maxsize` for the synthetic root
and otherwise the sum of the active sort key's value over the node and
its entire descendant subtree. -/
theorem getRessourceUsage_spec (n : ProcessTreeNode) :
    (nodeIsRoot n = true → getRessourceUsage n = sysMaxsize) ∧
    (nodeIsRoot n = false →
      getRessourceUsage n = subtreeSum (nodeSortKey n) n) := by
  constructor
  · intro h; simp [getRessourceUsage, h]
  · intro h
    simp only [getRessourceUsage, h, Bool.false_eq_true, if_false]
    rw [sumWork_eq_subtreeSumList (nodeSortKey n) (nodeListWeight [n]) [n] le_rfl]
    rw [subtreeSumList_singleton]
    rfl

/-- Witness: a node with two children carrying values 5 and 7 and no
grandchildren, own value 3: the aggregate equals 3 + 12. -/
theorem getRessourceUsage_spec_witness :
    nodeIsRoot aggregateNode = false ∧
      getRessourceUsage aggregateNode = 3 + 12 := by
  refine ⟨rfl, ?_⟩
  rw [(getRessourceUsage_spec aggregateNode).2 rfl]
  simp [aggregateNode, subtreeSum, subtreeSumList, nodeStatVal, nodeChildren,
    nodeStats, nodeSortKey, statOf, alookup]

/-! # C9: truncated record status vs full counter key -/

/-- C9: when the status fetch succeeds with the full string `s`, the
record produced with standard stats stores `str(s)[:1].upper()` (length
at most one), while the per-status counter bumped by the counting step is
keyed by the full untruncated string `s`. -/
theorem status_truncated_but_counter_key_full (pf : Platform) (st : PState)
    (proc : Proc) (m : Bool) (s : String) (st' : PState) (ps : ProcStat)
    (hs : proc.statusRes = .ok s)
    (hres : getProcessStats pf st proc m true = (st', some ps))
    (hnt : s ≠ "total") :
    ps.status = some (statusAbbrev s) ∧ (statusAbbrev s).length ≤ 1 ∧
      alookup (statusCountStep st.processcount proc) s =
        some ((alookup st.processcount s).getD 0 + 1) := by
  refine ⟨?_, ?_, ?_⟩
  · cases m with
    | false =>
      simp [getProcessStats, hs] at hres
      rw [← hres.2]
    | true =>
      cases hb : proc.basic with
      | error e => simp [getProcessStats, hb] at hres
      | ok cm =>
        by_cases hcm : cm.1.isNone || cm.2.isNone
        · simp [getProcessStats, hb, hcm] at hres
        · simp [getProcessStats, hb, hcm, hs] at hres
          rw [← hres.2]
  · have hlen : (statusAbbrev s).length =
        ((s.data.take 1).map Char.toUpper).length := rfl
    rw [hlen, List.length_map, List.length_take]
    omega
  · simp only [statusCountStep, hs]
    cases hL : alookup st.processcount s with
    | none =>
      simp [dIncr, dIncrBy, hL, alookup_aset_self]
    | some v =>
      have h1 : alookup (aset st.processcount s (v + 1)) s = some (v + 1) :=
        alookup_aset_self ..
      simp only [dIncr, dIncrBy, hL, Option.map_some', dIncrP]
      cases hT : alookup (aset st.processcount s (v + 1)) "total" with
      | none =>
        simp [h1]
      | some t =>
        simp only [Option.map_some']
        rw [alookup_aset_ne _ _ _ _ hnt, h1]
        simp

/-- Witness: status `running` gives record status `"R"` and bumps the
counter keyed by the full string `running` (from 0 to 1). -/
theorem status_truncated_but_counter_key_full_witness :
    procRunning.statusRes = .ok "running" ∧ "running" ≠ "total" ∧
      ({ pid := 2, name := "y", cmdline := "y",
          stats := [("cpu_percent", 20), ("memory_percent", 6)],
          io_counters := some ⟨0, 0, 0, 0, 1⟩,
          status := some (statusAbbrev "running"), username := some "?",
          mandatory_stats := true, standard_stats := true } : ProcStat).status =
        some (statusAbbrev "running") ∧
      (statusAbbrev "running").length ≤ 1 ∧
      alookup (statusCountStep initialProcessCount procRunning) "running" =
        some ((alookup initialProcessCount "running").getD 0 + 1) := by
  refine ⟨rfl, by decide, ?_⟩
  exact status_truncated_but_counter_key_full linuxPlatform {} procRunning true
    "running"
    { cmdline_cache := [(2, "y")], io_old := [(2, (0, 0))],
      username_cache := [(2, "?")] }
    { pid := 2, name := "y", cmdline := "y",
      stats := [("cpu_percent", 20), ("memory_percent", 6)],
      io_counters := some ⟨0, 0, 0, 0, 1⟩,
      status := some (statusAbbrev "running"), username := some "?",
      mandatory_stats := true, standard_stats := true }
    rfl rfl (by decide)

/-! # Sort-engine lemmas -/

theorem pySort_perm {β : Type} [LinearOrder β] (l : List ProcStat)
    (key : ProcStat → β) (rev : Bool) : (pySort l key rev).Perm l := by
  cases rev with
  | true =>
    simpa [pySort] using List.perm_insertionSort (fun a b => key b ≤ key a) l
  | false =>
    simpa [pySort] using List.perm_insertionSort (fun a b => key a ≤ key b) l

theorem pySort_sorted_desc {β : Type} [LinearOrder β] (l : List ProcStat)
    (key : ProcStat → β) :
    (pySort l key true).Sorted (fun a b => key b ≤ key a) := by
  haveI : IsTotal ProcStat (fun a b => key b ≤ key a) := ⟨fun a b => le_total _ _⟩
  haveI : IsTrans ProcStat (fun a b => key b ≤ key a) :=
    ⟨fun a b c hab hbc => le_trans hbc hab⟩
  simpa [pySort] using List.sorted_insertionSort (fun a b => key b ≤ key a) l

theorem pySort_sorted_asc {β : Type} [LinearOrder β] (l : List ProcStat)
    (key : ProcStat → β) :
    (pySort l key false).Sorted (fun a b => key a ≤ key b) := by
  haveI : IsTotal ProcStat (fun a b => key a ≤ key b) := ⟨fun a b => le_total _ _⟩
  haveI : IsTrans ProcStat (fun a b => key a ≤ key b) :=
    ⟨fun a b c hab hbc => le_trans hab hbc⟩
  simpa [pySort] using List.sorted_insertionSort (fun a b => key a ≤ key b) l

theorem pySort_eq_of_sorted_desc {β : Type} [LinearOrder β] (l : List ProcStat)
    (key : ProcStat → β) (h : l.Sorted fun a b => key b ≤ key a) :
    pySort l key true = l := by
  simpa [pySort] using h.insertionSort_eq

theorem pySort_eq_of_sorted_asc {β : Type} [LinearOrder β] (l : List ProcStat)
    (key : ProcStat → β) (h : l.Sorted fun a b => key a ≤ key b) :
    pySort l key false = l := by
  simpa [pySort] using h.insertionSort_eq

theorem pySortOpt_ok (l : List ProcStat) (key : ProcStat → Option Int)
    (rev : Bool) (out : List ProcStat) (h : pySortOpt l key rev = .ok out) :
    (∀ p ∈ l, (key p).isSome) ∧ out = pySort l (fun p => (key p).getD 0) rev := by
  unfold pySortOpt at h
  split at h
  · rename_i hall
    cases h
    exact ⟨hall, rfl⟩
  · cases h

theorem pySortOpt_all (l : List ProcStat) (key : ProcStat → Option Int)
    (rev : Bool) (hall : ∀ p ∈ l, (key p).isSome) :
    pySortOpt l key rev = .ok (pySort l (fun p => (key p).getD 0) rev) := by
  unfold pySortOpt
  rw [if_pos hall]

theorem pySortOpt_miss (l : List ProcStat) (key : ProcStat → Option Int)
    (rev : Bool) (h : ¬∀ p ∈ l, (key p).isSome) :
    pySortOpt l key rev = .error () := by
  unfold pySortOpt
  rw [if_neg h]

/-! # C5: the io_counters all-or-nothing fallback -/

/-- C5: when some record lacks the `io_counters` key, sorting by
`io_counters` produces exactly the same result (state and list) as
sorting the entire list by `cpu_percent` — the fallback is all-or-nothing
and descending. -/
theorem iocounters_sort_allornothing_fallback (st : PState)
    (hmiss : ∃ p ∈ st.processlist, p.io_counters = none)
    (hcpu : ∀ p ∈ st.processlist, (statOf p "cpu_percent").isSome) :
    getsortlist st (some "io_counters") = getsortlist st (some "cpu_percent") := by
  have hnotall : ¬∀ p ∈ st.processlist, (ioThroughput p).isSome := by
    rcases hmiss with ⟨p, hp, hio⟩
    intro hall
    have h2 := hall p hp
    simp [ioThroughput, hio] at h2
  simp only [getsortlist, String.reduceEq, reduceIte]
  rw [pySortOpt_miss _ _ _ hnotall]

/-- Witness: ten records, one (pid 4) with no `io_counters` key: the
`io_counters` sort equals the plain descending `cpu_percent` sort. -/
theorem iocounters_sort_allornothing_fallback_witness :
    (∃ p ∈ tenState.processlist, p.io_counters = none) ∧
      (∀ p ∈ tenState.processlist, (statOf p "cpu_percent").isSome) ∧
      getsortlist tenState (some "io_counters") =
        getsortlist tenState (some "cpu_percent") :=
  ⟨by decide, by decide,
    iocounters_sort_allornothing_fallback tenState (by decide) (by decide)⟩

/-! # C6: sort directions and idempotence -/

/-- C6: `getsortlist` with the `name` key yields ascending lexical order
of the name field; any other plain key yields descending order of that
key's value (for `io_counters`, descending combined throughput whenever
every record carries the key); and re-sorting the already-sorted stored
list with the same key returns it unchanged. -/
theorem getsortlist_ordering (st : PState) (key : String) :
    (key = "name" →
      ∀ st' out, getsortlist st (some key) = .ok (st', out) →
        out.Perm st.processlist ∧ SortedAscByName out) ∧
    (key ≠ "name" → key ≠ "io_counters" →
      ∀ st' out, getsortlist st (some key) = .ok (st', out) →
        out.Perm st.processlist ∧
          SortedDescBy (fun p => (statOf p key).getD 0) out) ∧
    ((∀ p ∈ st.processlist, (ioThroughput p).isSome) →
      ∀ st' out, getsortlist st (some "io_counters") = .ok (st', out) →
        out.Perm st.processlist ∧
          SortedDescBy (fun p => (ioThroughput p).getD 0) out) ∧
    (∀ st' out, getsortlist st (some key) = .ok (st', out) →
      getsortlist st' (some key) = .ok (st', out)) := by
  refine ⟨?_, ?_, ?_, ?_⟩
  · rintro rfl st' out h
    simp only [getsortlist, String.reduceEq, reduceIte] at h
    obtain ⟨l, he, hy⟩ := exceptMap_ok _ _ _ h
    cases he
    obtain ⟨h1, h2⟩ := Prod.mk.injEq .. ▸ hy
    subst h2
    exact ⟨pySort_perm .., pySort_sorted_asc ..⟩
  · intro hn hio st' out h
    simp only [getsortlist, if_neg hio, if_neg hn] at h
    obtain ⟨l, he, hy⟩ := exceptMap_ok _ _ _ h
    obtain ⟨hall, hl⟩ := pySortOpt_ok _ _ _ _ he
    obtain ⟨h1, h2⟩ := Prod.mk.injEq .. ▸ hy
    subst h2
    rw [hl]
    exact ⟨pySort_perm .., pySort_sorted_desc ..⟩
  · intro hall st' out h
    simp only [getsortlist, String.reduceEq, reduceIte] at h
    rw [pySortOpt_all _ _ _ hall] at h
    obtain ⟨l, he, hy⟩ := exceptMap_ok _ _ _ h
    cases he
    obtain ⟨h1, h2⟩ := Prod.mk.injEq .. ▸ hy
    subst h2
    exact ⟨pySort_perm .., pySort_sorted_desc ..⟩
  · intro st' out h
    by_cases hio : key = "io_counters"
    · subst hio
      simp only [getsortlist, String.reduceEq, reduceIte] at h ⊢
      by_cases hall : ∀ p ∈ st.processlist, (ioThroughput p).isSome
      · rw [pySortOpt_all _ _ _ hall] at h
        obtain ⟨l, he, hy⟩ := exceptMap_ok _ _ _ h
        cases he
        obtain ⟨h1, h2⟩ := Prod.mk.injEq .. ▸ hy
        subst h2
        subst h1
        have hall' : ∀ p ∈ pySort st.processlist
            (fun p => (ioThroughput p).getD 0) true, (ioThroughput p).isSome :=
          fun p hp => hall p ((pySort_perm ..).mem_iff.mp hp)
        rw [pySortOpt_all _ _ _ hall',
          pySort_eq_of_sorted_desc _ _ (pySort_sorted_desc ..)]
        rfl
      · rw [pySortOpt_miss _ _ _ hall] at h
        obtain ⟨l, he, hy⟩ := exceptMap_ok _ _ _ h
        obtain ⟨hcall, hl⟩ := pySortOpt_ok _ _ _ _ he
        obtain ⟨h1, h2⟩ := Prod.mk.injEq .. ▸ hy
        subst h2
        subst h1
        subst hl
        have hmiss' : ¬∀ p ∈ pySort st.processlist
            (fun p => (statOf p "cpu_percent").getD 0) true,
            (ioThroughput p).isSome := by
          intro hforall
          exact hall fun p hp =>
            hforall p ((pySort_perm ..).mem_iff.mpr hp)
        rw [pySortOpt_miss _ _ _ hmiss']
        have hcall' : ∀ p ∈ pySort st.processlist
            (fun p => (statOf p "cpu_percent").getD 0) true,
            (statOf p "cpu_percent").isSome :=
          fun p hp => hcall p ((pySort_perm ..).mem_iff.mp hp)
        rw [pySortOpt_all _ _ _ hcall',
          pySort_eq_of_sorted_desc _ _ (pySort_sorted_desc ..)]
        rfl
    · by_cases hnm : key = "name"
      · subst hnm
        simp only [getsortlist, String.reduceEq, reduceIte] at h ⊢
        obtain ⟨l, he, hy⟩ := exceptMap_ok _ _ _ h
        cases he
        obtain ⟨h1, h2⟩ := Prod.mk.injEq .. ▸ hy
        subst h2
        subst h1
        rw [pySort_eq_of_sorted_asc _ _ (pySort_sorted_asc ..)]
        rfl
      · simp only [getsortlist, if_neg hio, if_neg hnm] at h ⊢
        obtain ⟨l, he, hy⟩ := exceptMap_ok _ _ _ h
        obtain ⟨hall, hl⟩ := pySortOpt_ok _ _ _ _ he
        obtain ⟨h1, h2⟩ := Prod.mk.injEq .. ▸ hy
        subst h2
        subst h1
        subst hl
        have hall' : ∀ p ∈ pySort st.processlist
            (fun p => (statOf p key).getD 0) true, (statOf p key).isSome :=
          fun p hp => hall p ((pySort_perm ..).mem_iff.mp hp)
        rw [pySortOpt_all _ _ _ hall',
          pySort_eq_of_sorted_desc _ _ (pySort_sorted_desc ..)]
        rfl

/-- Witness: the three-record state sorted by name (ascending) and the
idempotence of re-sorting it. -/
theorem getsortlist_ordering_witness :
    (nameSortedThree.Perm threeState.processlist ∧
        SortedAscByName nameSortedThree) ∧
      getsortlist { threeState with processlist := nameSortedThree }
          (some "name") =
        .ok ({ threeState with processlist := nameSortedThree },
          nameSortedThree) := by
  have hsort : pySort threeState.processlist (fun p => p.name) false =
      nameSortedThree := by
    simp [pySort, threeState, threeRecords, nameSortedThree,
      List.insertionSort, List.orderedInsert]
    decide
  have h0 : getsortlist threeState (some "name") =
      .ok ({ threeState with processlist := nameSortedThree },
        nameSortedThree) := by
    simp only [getsortlist, String.reduceEq, reduceIte]
    rw [hsort]
    rfl
  exact ⟨(getsortlist_ordering threeState "name").1 rfl _ _ h0,
    (getsortlist_ordering threeState "name").2.2.2 _ _ h0⟩

/-- Witness: a concrete sort stores its result in the state. -/
theorem getsortlist_mutates_stored_list_witness :
    getsortlist threeState (some "cpu_percent") =
        .ok ({ threeState with processlist := cpuSortedThree }, cpuSortedThree) ∧
      getlist { threeState with processlist := cpuSortedThree } =
        cpuSortedThree := by
  have h0 : getsortlist threeState (some "cpu_percent") =
      .ok ({ threeState with processlist := cpuSortedThree }, cpuSortedThree) := by
    rfl
  exact ⟨h0,
    ((getsortlist_mutates_stored_list threeState).2 "cpu_percent" _ _ h0).2⟩

/-! # Tree-construction lemmas -/

theorem attachAtList_map_nodePid :
    ∀ (cs : List ProcessTreeNode) (t : Nat) (child : ProcessTreeNode),
      (attachAtList cs t child).map nodePid = cs.map nodePid := by
  intro cs t child
  induction cs with
  | nil => simp [attachAtList]
  | cons x cs ih =>
    cases x with
    | mk p s c k r =>
      simp only [attachAtList]
      split
      · simp [nodePid, nodeProcess]
      · split
        · simp [nodePid, nodeProcess]
        · simp [nodePid, nodeProcess, ih]

theorem nodeIsRoot_attachAt (n : ProcessTreeNode) (t : Nat)
    (c : ProcessTreeNode) : nodeIsRoot (attachAt n t c) = nodeIsRoot n := by
  cases n with
  | mk p s ch k r =>
    simp only [attachAt]
    split <;> simp [nodeIsRoot]

theorem nodeIsRoot_rootAppend (n : ProcessTreeNode) (c : ProcessTreeNode) :
    nodeIsRoot (rootAppend n c) = nodeIsRoot n := by
  cases n with
  | mk p s ch k r => simp [rootAppend, nodeIsRoot]

theorem any_map_general {α β : Type} (f : α → β) (l : List α) (p : β → Bool) :
    (l.map f).any p = l.any fun a => p (f a) := by
  induction l with
  | nil => rfl
  | cons x xs ih => simp [List.any, ih]

theorem topHasPid_attachAt (n : ProcessTreeNode) (t : Nat)
    (c : ProcessTreeNode) (x : Nat) (hroot : nodeIsRoot n = true) :
    topHasPid (attachAt n t c) x = topHasPid n x := by
  cases n with
  | mk p s ch k r =>
    simp only [nodeIsRoot] at hroot
    subst hroot
    simp only [attachAt, Bool.not_true, Bool.false_and, Bool.false_eq_true,
      if_false]
    unfold topHasPid
    simp only [nodeChildren]
    have hm := attachAtList_map_nodePid ch t c
    calc (attachAtList ch t c).any (fun cc => nodePid cc == some x)
        = ((attachAtList ch t c).map nodePid).any (fun o => o == some x) := by
          rw [any_map_general]
      _ = (ch.map nodePid).any (fun o => o == some x) := by rw [hm]
      _ = ch.any (fun cc => nodePid cc == some x) := by rw [any_map_general]

theorem topHasPid_rootAppend (n : ProcessTreeNode) (c : ProcessTreeNode)
    (x : Nat) :
    topHasPid (rootAppend n c) x =
      (topHasPid n x || (nodePid c == some x)) := by
  cases n with
  | mk p s ch k r => simp [rootAppend, topHasPid, nodeChildren]

theorem drainRun_preserves_top (fuel : Nat) :
    ∀ (root : ProcessTreeNode) (pending : List ProcessTreeNode)
      (out : ProcessTreeNode) (x : Nat),
      nodeIsRoot root = true → topHasPid root x = true →
      drainRun fuel root pending = some out → topHasPid out x = true := by
  induction fuel with
  | zero =>
    intro root pending out x hr ht hd
    cases pending with
    | nil =>
      simp only [drainRun] at hd
      cases hd
      exact ht
    | cons a l => simp [drainRun] at hd
  | succ fuel ih =>
    intro root pending out x hr ht hd
    cases pending with
    | nil =>
      simp only [drainRun] at hd
      cases hd
      exact ht
    | cons node rest =>
      simp only [drainRun] at hd
      have hstep : nodeIsRoot (drainStep root node rest).1 = true ∧
          topHasPid (drainStep root node rest).1 x = true := by
        unfold drainStep
        cases hpar : nodeParentInfo node with
        | dead =>
          exact ⟨by simp [nodeIsRoot_rootAppend, hr],
            by simp [topHasPid_rootAppend, ht]⟩
        | noparent => exact ⟨hr, ht⟩
        | live pp =>
          by_cases hc : containsPid root pp = true
          · simp only [hc, if_true]
            exact ⟨by simp [nodeIsRoot_attachAt, hr],
              by simp [topHasPid_attachAt _ _ _ _ hr, ht]⟩
          · simp only [hc, if_false]
            exact ⟨hr, ht⟩
      exact ih _ _ _ x hstep.1 hstep.2 hd

theorem firstPassStep_isroot (k : Option String)
    (acc : ProcessTreeNode × List ProcessTreeNode) (it : Proc × ProcStat)
    (h : nodeIsRoot acc.1 = true) :
    nodeIsRoot (firstPassStep k acc it).1 = true := by
  cases hpar : it.1.parentInfo with
  | dead => simp [firstPassStep, hpar, nodeIsRoot_rootAppend, h]
  | noparent => simp [firstPassStep, hpar, nodeIsRoot_rootAppend, h]
  | live pp =>
    by_cases hc : containsPid acc.1 pp = true
    · simp [firstPassStep, hpar, hc, nodeIsRoot_attachAt, h]
    · simp [firstPassStep, hpar, hc, h]

theorem firstPass_isroot (k : Option String) (items : List (Proc × ProcStat)) :
    ∀ acc, nodeIsRoot acc.1 = true →
      nodeIsRoot (items.foldl (firstPassStep k) acc).1 = true := by
  induction items with
  | nil => intro acc h; simpa using h
  | cons it rest ih =>
    intro acc h
    simpa [List.foldl] using ih _ (firstPassStep_isroot k acc it h)

theorem firstPassStep_top_mono (k : Option String)
    (acc : ProcessTreeNode × List ProcessTreeNode) (it : Proc × ProcStat)
    (x : Nat) (hr : nodeIsRoot acc.1 = true) (h : topHasPid acc.1 x = true) :
    topHasPid (firstPassStep k acc it).1 x = true := by
  cases hpar : it.1.parentInfo with
  | dead => simp [firstPassStep, hpar, topHasPid_rootAppend, h]
  | noparent => simp [firstPassStep, hpar, topHasPid_rootAppend, h]
  | live pp =>
    by_cases hc : containsPid acc.1 pp = true
    · simp [firstPassStep, hpar, hc, topHasPid_attachAt _ _ _ _ hr, h]
    · simp [firstPassStep, hpar, hc, h]

theorem firstPass_top_mono (k : Option String)
    (items : List (Proc × ProcStat)) :
    ∀ acc x, nodeIsRoot acc.1 = true → topHasPid acc.1 x = true →
      topHasPid (items.foldl (firstPassStep k) acc).1 x = true := by
  induction items with
  | nil => intro acc x hr h; simpa using h
  | cons it rest ih =>
    intro acc x hr h
    simpa [List.foldl] using ih _ x (firstPassStep_isroot k acc it hr)
      (firstPassStep_top_mono k acc it x hr h)

theorem firstPass_establishes (k : Option String)
    (items : List (Proc × ProcStat)) :
    ∀ acc p s, (p, s) ∈ items →
      (p.parentInfo = .dead ∨ p.parentInfo = .noparent) →
      nodeIsRoot acc.1 = true →
      topHasPid (items.foldl (firstPassStep k) acc).1 p.pid = true := by
  induction items with
  | nil => intro acc p s hmem; cases hmem
  | cons it rest ih =>
    intro acc p s hmem hpar hr
    cases List.mem_cons.mp hmem with
    | inl heq =>
      subst heq
      simp only [List.foldl]
      apply firstPass_top_mono k rest _ p.pid (firstPassStep_isroot k acc _ hr)
      cases hpar with
      | inl hd =>
        simp [firstPassStep, hd, topHasPid_rootAppend, nodePid, nodeProcess]
      | inr hn =>
        simp [firstPassStep, hn, topHasPid_rootAppend, nodePid, nodeProcess]
    | inr hrest =>
      simp only [List.foldl]
      exact ih _ p s hrest hpar (firstPassStep_isroot k acc it hr)

/-! # C8: processes with a vanished parent become top-level -/

/-- C8: a record whose `parent()` query fails (or returns `None`) is
attached as a direct child of the synthetic root, and on the scenario
`{A(pid=1, no parent), B(pid=2, parent=1), C(pid=3, parent=99 dead)}` the
produced tree is exactly root → [A → [B], C]. -/
theorem deadparent_records_attach_top_level :
    (∀ (input : List (Proc × ProcStat)) (k : Option String) (fuel : Nat)
        (root : ProcessTreeNode) (p : Proc) (s : ProcStat),
      (p, s) ∈ input → (p.parentInfo = .dead ∨ p.parentInfo = .noparent) →
      buildTree fuel input k = some root → topHasPid root p.pid = true) ∧
    (∀ fuel, buildTree fuel scenarioInput (some "cpu_percent") =
      some scenarioExpected) := by
  constructor
  · intro input k fuel root p s hmem hpar hb
    unfold buildTree at hb
    refine drainRun_preserves_top fuel _ _ _ p.pid ?_ ?_ hb
    · exact firstPass_isroot k input (rootNode, []) rfl
    · exact firstPass_establishes k input (rootNode, []) p s hmem hpar rfl
  · intro fuel
    have hfold : scenarioInput.foldl (firstPassStep (some "cpu_percent"))
        (rootNode, []) =
        (scenarioExpected, []) := by
      simp [scenarioInput, List.foldl, firstPassStep, procA, procB, procC,
        rootNode, rootAppend, containsPid, containsPidList, pidIs,
        nodeProcess, attachAt, attachAtList, scenarioExpected]
    unfold buildTree
    rw [hfold]
    simp [drainRun]

/-! # C4: the drain loop and unresolvable parents -/

theorem pidsInList_append (S : List Nat) :
    ∀ a b, pidsInList S (a ++ b) = (pidsInList S a && pidsInList S b) := by
  intro a b
  induction a with
  | nil => simp [pidsInList]
  | cons x xs ih =>
    cases x with
    | mk p s c k r =>
      simp only [List.cons_append, pidsInList, ih]
      simp [Bool.and_assoc]

theorem containsPidList_mem (S : List Nat) :
    ∀ N l t, nodeListWeight l ≤ N → pidsInList S l = true →
      containsPidList l t = true → t ∈ S := by
  intro N
  induction N with
  | zero =>
    intro l t hw hp hc
    cases l with
    | nil => simp [containsPidList] at hc
    | cons n rest =>
      exfalso
      have h1 := nodeWeight_eq n
      simp [nodeListWeight] at hw
      omega
  | succ N ih =>
    intro l t hw hp hc
    cases l with
    | nil => simp [containsPidList] at hc
    | cons n rest =>
      cases n with
      | mk p s c k r =>
        simp only [pidsInList, Bool.and_eq_true] at hp
        simp only [containsPidList, Bool.or_eq_true, Bool.and_eq_true] at hc
        have hwn : nodeListWeight (ProcessTreeNode.mk p s c k r :: rest) =
            (1 + nodeListWeight c) + nodeListWeight rest := by
          have := nodeWeight_eq (ProcessTreeNode.mk p s c k r)
          simp only [nodeListWeight]
          rw [this]
          simp [nodeChildren]
        rcases hc with (⟨hr', hpid⟩ | hcc) | hcs
        · cases p with
          | none => simp [pidIs] at hpid
          | some q =>
            simp only [pidIs, beq_iff_eq] at hpid
            have hq := hp.1.1
            simp only [Option.some.injEq] at hq
            rw [← hpid]
            exact of_decide_eq_true hq
        · refine ih c t ?_ hp.1.2 hcc
          omega
        · refine ih rest t ?_ hp.2 hcs
          omega

theorem containsPid_eq_list (n : ProcessTreeNode) (t : Nat) :
    containsPid n t = containsPidList [n] t := by
  cases n with
  | mk p s c k r => simp [containsPid, containsPidList]

theorem pidsInList_attachAtList (S : List Nat) :
    ∀ N cs t child, nodeListWeight cs ≤ N → pidsInList S cs = true →
      pidsIn S child = true → pidsInList S (attachAtList cs t child) = true := by
  intro N
  induction N with
  | zero =>
    intro cs t child hw hp hc
    cases cs with
    | nil => simpa [attachAtList] using hp
    | cons n rest =>
      exfalso
      have h1 := nodeWeight_eq n
      simp [nodeListWeight] at hw
      omega
  | succ N ih =>
    intro cs t child hw hp hc
    cases cs with
    | nil => simpa [attachAtList] using hp
    | cons n rest =>
      cases n with
      | mk p s c k r =>
        simp only [pidsInList, Bool.and_eq_true] at hp
        have hwn : nodeListWeight (ProcessTreeNode.mk p s c k r :: rest) =
            (1 + nodeListWeight c) + nodeListWeight rest := by
          have := nodeWeight_eq (ProcessTreeNode.mk p s c k r)
          simp only [nodeListWeight]
          rw [this]
          simp [nodeChildren]
        simp only [attachAtList]
        split
        · simp only [pidsInList, Bool.and_eq_true, pidsInList_append]
          exact ⟨⟨hp.1.1, hp.1.2, hc⟩, hp.2⟩
        · split
          · simp only [pidsInList, Bool.and_eq_true]
            refine ⟨⟨hp.1.1, ?_⟩, hp.2⟩
            refine ih c t child ?_ hp.1.2 hc
            omega
          · simp only [pidsInList, Bool.and_eq_true]
            refine ⟨⟨hp.1.1, hp.1.2⟩, ?_⟩
            refine ih rest t child ?_ hp.2 hc
            omega

theorem pidsIn_attachAt (S : List Nat) (n : ProcessTreeNode) (t : Nat)
    (child : ProcessTreeNode) (hn : pidsIn S n = true)
    (hc : pidsIn S child = true) : pidsIn S (attachAt n t child) = true := by
  cases n with
  | mk p s c k r =>
    simp only [pidsIn, pidsInList, Bool.and_eq_true, and_true] at hn ⊢
    simp only [attachAt]
    split
    · simp only [pidsInList, Bool.and_eq_true, and_true, pidsInList_append]
      exact ⟨hn.1, hn.2, hc⟩
    · simp only [pidsInList, Bool.and_eq_true, and_true]
      exact ⟨hn.1, pidsInList_attachAtList S (nodeListWeight c) c t child
        le_rfl hn.2 hc⟩

theorem pidsIn_rootAppend (S : List Nat) (n : ProcessTreeNode)
    (child : ProcessTreeNode) (hn : pidsIn S n = true)
    (hc : pidsIn S child = true) : pidsIn S (rootAppend n child) = true := by
  cases n with
  | mk p s c k r =>
    simp only [pidsIn, pidsInList, Bool.and_eq_true, and_true,
      rootAppend, pidsInList_append] at hn ⊢
    exact ⟨hn.1, hn.2, hc⟩

theorem drainStep_preserves (S : List Nat) (root node : ProcessTreeNode)
    (rest : List ProcessTreeNode) (hroot : pidsIn S root = true)
    (hpend : pidsInList S (node :: rest) = true)
    (hbad : ∃ x ∈ node :: rest, BadLive S x) :
    pidsIn S (drainStep root node rest).1 = true ∧
      pidsInList S (drainStep root node rest).2 = true ∧
      (∃ x ∈ (drainStep root node rest).2, BadLive S x) := by
  have hnode : pidsIn S node = true := by
    cases node with
    | mk p s c k r =>
      simp only [pidsInList, Bool.and_eq_true] at hpend
      simp only [pidsIn, pidsInList, Bool.and_eq_true, and_true]
      exact hpend.1
  have hrest : pidsInList S rest = true := by
    cases node with
    | mk p s c k r =>
      simp only [pidsInList, Bool.and_eq_true] at hpend
      exact hpend.2
  have happrest : ∀ z : ProcessTreeNode, pidsInList S (rest ++ [z]) =
      (pidsInList S rest && pidsIn S z) := by
    intro z
    rw [pidsInList_append]
    rfl
  cases hpar : nodeParentInfo node with
  | dead =>
    refine ⟨by simp [drainStep, hpar, pidsIn_rootAppend S _ _ hroot hnode],
      by simp [drainStep, hpar, hrest], ?_⟩
    simp only [drainStep, hpar]
    rcases hbad with ⟨x, hx, hbx⟩
    cases List.mem_cons.mp hx with
    | inl heq =>
      exfalso
      subst heq
      rcases hbx with ⟨pp, hpp, _⟩
      rw [hpar] at hpp
      cases hpp
    | inr hmem => exact ⟨x, hmem, hbx⟩
  | noparent =>
    refine ⟨by simp [drainStep, hpar, hroot], ?_, ?_⟩
    · simp [drainStep, hpar, happrest, hrest, hnode]
    · simp only [drainStep, hpar]
      rcases hbad with ⟨x, hx, hbx⟩
      cases List.mem_cons.mp hx with
      | inl heq =>
        subst heq
        exact ⟨x, by simp, hbx⟩
      | inr hmem => exact ⟨x, by simp [hmem], hbx⟩
  | live pp =>
    by_cases hc : containsPid root pp = true
    · have hppS : pp ∈ S := by
        rw [containsPid_eq_list] at hc
        refine containsPidList_mem S (nodeListWeight [root]) [root] pp le_rfl
          ?_ hc
        simpa [pidsIn] using hroot
      refine ⟨by simp [drainStep, hpar, hc, pidsIn_attachAt S _ _ _ hroot hnode],
        by simp [drainStep, hpar, hc, hrest], ?_⟩
      simp only [drainStep, hpar, hc, if_true]
      rcases hbad with ⟨x, hx, hbx⟩
      cases List.mem_cons.mp hx with
      | inl heq =>
        exfalso
        subst heq
        rcases hbx with ⟨pp', hpp', hppS'⟩
        rw [hpar] at hpp'
        cases hpp'
        exact hppS' hppS
      | inr hmem => exact ⟨x, hmem, hbx⟩
    · refine ⟨by simp [drainStep, hpar, hc, hroot], ?_, ?_⟩
      · simp [drainStep, hpar, hc, happrest, hrest, hnode]
      · simp only [drainStep, hpar, hc, if_false]
        rcases hbad with ⟨x, hx, hbx⟩
        cases List.mem_cons.mp hx with
        | inl heq =>
          subst heq
          exact ⟨x, by simp, hbx⟩
        | inr hmem => exact ⟨x, by simp [hmem], hbx⟩

theorem drainRun_none (S : List Nat) :
    ∀ (fuel : Nat) (root : ProcessTreeNode) (pending : List ProcessTreeNode),
      pidsIn S root = true → pidsInList S pending = true →
      (∃ x ∈ pending, BadLive S x) → drainRun fuel root pending = none := by
  intro fuel
  induction fuel with
  | zero =>
    intro root pending hroot hpend hbad
    cases pending with
    | nil =>
      rcases hbad with ⟨x, hx, _⟩
      cases hx
    | cons node rest => simp [drainRun]
  | succ fuel ih =>
    intro root pending hroot hpend hbad
    cases pending with
    | nil =>
      rcases hbad with ⟨x, hx, _⟩
      cases hx
    | cons node rest =>
      obtain ⟨h1, h2, h3⟩ := drainStep_preserves S root node rest hroot hpend hbad
      simp only [drainRun]
      exact ih _ _ h1 h2 h3

theorem firstPassStep_inv (S : List Nat) (k : Option String)
    (acc : ProcessTreeNode × List ProcessTreeNode) (it : Proc × ProcStat)
    (hpid : it.1.pid ∈ S) (hroot : pidsIn S acc.1 = true)
    (hpend : pidsInList S acc.2 = true) :
    pidsIn S (firstPassStep k acc it).1 = true ∧
      pidsInList S (firstPassStep k acc it).2 = true := by
  have hnew : pidsIn S (ProcessTreeNode.mk (some it.1) (some it.2) [] k false)
      = true := by
    simp [pidsIn, pidsInList, pidOkay, hpid]
  cases hpar : it.1.parentInfo with
  | dead =>
    exact ⟨by simp [firstPassStep, hpar, pidsIn_rootAppend S _ _ hroot hnew],
      by simp [firstPassStep, hpar, hpend]⟩
  | noparent =>
    exact ⟨by simp [firstPassStep, hpar, pidsIn_rootAppend S _ _ hroot hnew],
      by simp [firstPassStep, hpar, hpend]⟩
  | live pp =>
    by_cases hc : containsPid acc.1 pp = true
    · exact ⟨by simp [firstPassStep, hpar, hc,
          pidsIn_attachAt S _ _ _ hroot hnew],
        by simp [firstPassStep, hpar, hc, hpend]⟩
    · refine ⟨by simp [firstPassStep, hpar, hc, hroot], ?_⟩
      simp only [firstPassStep, hpar, hc, Bool.false_eq_true, if_false,
        pidsInList_append, Bool.and_eq_true]
      exact ⟨hpend, hnew⟩

theorem firstPass_inv (S : List Nat) (k : Option String)
    (items : List (Proc × ProcStat)) :
    ∀ acc, (∀ it ∈ items, it.1.pid ∈ S) → pidsIn S acc.1 = true →
      pidsInList S acc.2 = true →
      pidsIn S (items.foldl (firstPassStep k) acc).1 = true ∧
        pidsInList S (items.foldl (firstPassStep k) acc).2 = true := by
  induction items with
  | nil => intro acc hall hroot hpend; exact ⟨hroot, hpend⟩
  | cons it rest ih =>
    intro acc hall hroot hpend
    obtain ⟨h1, h2⟩ := firstPassStep_inv S k acc it (hall it (by simp))
      hroot hpend
    simpa [List.foldl] using ih _ (fun x hx => hall x (by simp [hx])) h1 h2

theorem firstPass_pending_mono (k : Option String)
    (items : List (Proc × ProcStat)) :
    ∀ acc x, x ∈ acc.2 → x ∈ (items.foldl (firstPassStep k) acc).2 := by
  induction items with
  | nil => intro acc x hx; simpa using hx
  | cons it rest ih =>
    intro acc x hx
    refine ih _ x ?_
    cases hpar : it.1.parentInfo with
    | dead => simpa [firstPassStep, hpar] using hx
    | noparent => simpa [firstPassStep, hpar] using hx
    | live pp =>
      by_cases hc : containsPid acc.1 pp = true
      · simpa [firstPassStep, hpar, hc] using hx
      · simp [firstPassStep, hpar, hc, hx]

theorem firstPass_bad (S : List Nat) (k : Option String)
    (items : List (Proc × ProcStat)) :
    ∀ acc p s pp, (p, s) ∈ items → p.parentInfo = .live pp → pp ∉ S →
      (∀ it ∈ items, it.1.pid ∈ S) → pidsIn S acc.1 = true →
      pidsInList S acc.2 = true →
      ∃ x ∈ (items.foldl (firstPassStep k) acc).2, BadLive S x := by
  induction items with
  | nil => intro acc p s pp hmem; cases hmem
  | cons it rest ih =>
    intro acc p s pp hmem hpar hpp hall hroot hpend
    obtain ⟨h1, h2⟩ := firstPassStep_inv S k acc it (hall it (by simp))
      hroot hpend
    cases List.mem_cons.mp hmem with
    | inl heq =>
      subst heq
      have hc : containsPid acc.1 pp ≠ true := by
        intro hc
        apply hpp
        rw [containsPid_eq_list] at hc
        refine containsPidList_mem S (nodeListWeight [acc.1]) [acc.1] pp
          le_rfl ?_ hc
        simpa [pidsIn] using hroot
      have hmemnew : (ProcessTreeNode.mk (some p) (some s) [] k false) ∈
          (firstPassStep k acc (p, s)).2 := by
        simp [firstPassStep, hpar, hc]
      refine ⟨ProcessTreeNode.mk (some p) (some s) [] k false, ?_, ?_⟩
      · simpa [List.foldl] using
          firstPass_pending_mono k rest (firstPassStep k acc (p, s)) _ hmemnew
      · exact ⟨pp, by simpa [nodeParentInfo, nodeProcess] using hpar, hpp⟩
    | inr hrest =>
      simp only [List.foldl]
      exact ih _ p s pp hrest hpar hpp (fun x hx => hall x (by simp [hx])) h1 h2

/-- C4 amended: the claim's guaranteed termination fails — whenever some
input record's live parent has no record in the input set, the
pending-queue drain loop of `buildTree` runs forever (no fuel ever
suffices: the deferred node is re-enqueued on every pass). -/
theorem buildTree_diverges_on_unresolvable_parent
    (input : List (Proc × ProcStat)) (k : Option String) (p : Proc)
    (s : ProcStat) (pp : Nat) (hmem : (p, s) ∈ input)
    (hp : p.parentInfo = .live pp) (hpp : pp ∉ inputPids input) (fuel : Nat) :
    buildTree fuel input k = none := by
  have hall : ∀ it ∈ input, it.1.pid ∈ inputPids input := by
    intro it hit
    exact List.mem_map.mpr ⟨it, hit, rfl⟩
  have hroot0 : pidsIn (inputPids input) rootNode = true := by
    simp [pidsIn, pidsInList, pidOkay, rootNode]
  obtain ⟨h1, h2⟩ := firstPass_inv (inputPids input) k input (rootNode, [])
    hall hroot0 (by simp [pidsInList])
  have h3 := firstPass_bad (inputPids input) k input (rootNode, []) p s pp
    hmem hp hpp hall hroot0 (by simp [pidsInList])
  unfold buildTree
  exact drainRun_none (inputPids input) fuel _ _ h1 h2 h3

/-- Witness: the orphan input (pid 3 whose live parent 99 has no record)
makes `buildTree` diverge — shown here at fuel 7. -/
theorem buildTree_diverges_on_unresolvable_parent_witness :
    ((procOrphan, statOrphan) ∈ orphanInput ∧
        procOrphan.parentInfo = .live 99 ∧ 99 ∉ inputPids orphanInput) ∧
      buildTree 7 orphanInput (some "cpu_percent") = none :=
  ⟨⟨by decide, rfl, by decide⟩,
    buildTree_diverges_on_unresolvable_parent orphanInput (some "cpu_percent")
      procOrphan statOrphan 99 (by decide) rfl (by decide) 7⟩

theorem drainRun_orphan_none :
    ∀ fuel, drainRun fuel rootNode [orphanNode] = none := by
  intro fuel
  induction fuel with
  | zero => simp [drainRun]
  | succ fuel ih =>
    have hstep : drainStep rootNode orphanNode [] = (rootNode, [orphanNode]) := by
      simp [drainStep, nodeParentInfo, orphanNode, nodeProcess, procOrphan,
        containsPid, containsPidList, rootNode]
    simp only [drainRun, hstep]
    exact ih

/-- C4 counterexample: `buildTree` does *not* terminate on every finite
input — on the orphan input (a record whose live parent exists but has no
record) no number of drain iterations ever empties the pending queue. -/
theorem buildTree_not_terminating_on_orphan :
    ¬buildTreeTerminatesOn orphanInput (some "cpu_percent") := by
  rintro ⟨fuel, hf⟩
  have hfold : orphanInput.foldl (firstPassStep (some "cpu_percent"))
      (rootNode, []) = (rootNode, [orphanNode]) := by
    simp [orphanInput, List.foldl, firstPassStep, procOrphan, statOrphan,
      containsPid, containsPidList, rootNode, orphanNode, pidIs]
  unfold buildTree at hf
  rw [hfold, drainRun_orphan_none fuel] at hf
  simp at hf

/-- Witness: the scenario run itself discharges the general statement's
hypotheses (record C's parent query fails; C ends up top-level). -/
theorem deadparent_records_attach_top_level_witness :
    ((procC, statC) ∈ scenarioInput ∧ procC.parentInfo = .dead) ∧
      topHasPid scenarioExpected procC.pid = true := by
  refine ⟨⟨by decide, rfl⟩, ?_⟩
  exact deadparent_records_attach_top_level.1 scenarioInput
    (some "cpu_percent") 5 scenarioExpected procC statC (by decide)
    (Or.inl rfl) (deadparent_records_attach_top_level.2 5)

/-! # C1: the total counter vs the cycle's output -/

theorem CountInv_initial : CountInv initialProcessCount initialSeen 0 := by
  constructor
  · rfl
  · intro s hs
    constructor
    · intro hsome
      by_cases h2 : s = "running"
      · simp [initialSeen, h2]
      by_cases h3 : s = "sleeping"
      · simp [initialSeen, h3]
      by_cases h4 : s = "thread"
      · simp [initialSeen, h4]
      exfalso
      have hnone : alookup initialProcessCount s = none := by
        simp [initialProcessCount, alookup, Ne.symm hs, Ne.symm h2,
          Ne.symm h3, Ne.symm h4]
      rw [hnone] at hsome
      simp at hsome
    · intro hmem
      simp only [initialSeen, List.mem_cons, List.mem_singleton] at hmem
      rcases hmem with rfl | rfl | (rfl | hfalse)
      · decide
      · decide
      · decide
      · cases hfalse

theorem CountInv_aset_present (m : List (String × Nat)) (seen : List String)
    (t : Nat) (k : String) (v : Nat) (hinv : CountInv m seen t)
    (hk : (alookup m k).isSome) (hkt : k ≠ "total") :
    CountInv (aset m k v) seen t := by
  obtain ⟨h1, h2⟩ := hinv
  constructor
  · rw [alookup_aset_ne _ _ _ _ (Ne.symm hkt)]
    exact h1
  · intro s hs
    by_cases hsk : s = k
    · subst hsk
      rw [alookup_aset_self]
      simp only [Option.isSome_some, true_iff]
      exact (h2 s hs).mp hk
    · rw [alookup_aset_ne _ _ _ _ hsk]
      exact h2 s hs

theorem CountInv_total_incr (m : List (String × Nat)) (seen : List String)
    (t : Nat) (hinv : CountInv m seen t) :
    CountInv (dIncrP m "total") seen (t + 1) := by
  obtain ⟨h1, h2⟩ := hinv
  simp only [dIncrP, dIncr, dIncrBy, h1, Option.map_some']
  constructor
  · exact alookup_aset_self ..
  · intro s hs
    rw [alookup_aset_ne _ _ _ _ hs]
    exact h2 s hs

theorem CountInv_aset_new (m : List (String × Nat)) (seen : List String)
    (t : Nat) (s : String) (hinv : CountInv m seen t)
    (hs : alookup m s = none) (hst : s ≠ "total") :
    CountInv (aset m s 1) (s :: seen) t := by
  obtain ⟨h1, h2⟩ := hinv
  constructor
  · rw [alookup_aset_ne _ _ _ _ (Ne.symm hst)]
    exact h1
  · intro s' hs'
    by_cases hss : s' = s
    · subst hss
      rw [alookup_aset_self]
      simp
    · rw [alookup_aset_ne _ _ _ _ hss]
      rw [h2 s' hs']
      simp [List.mem_cons, hss]

theorem statusCountStep_inv_mem (m : List (String × Nat))
    (seen : List String) (t : Nat) (p : Proc) (s : String)
    (hs : p.statusRes = .ok s) (hnt : s ≠ "total") (hinv : CountInv m seen t)
    (hmem : s ∈ seen) : CountInv (statusCountStep m p) seen (t + 1) := by
  have hk : (alookup m s).isSome := (hinv.2 s hnt).mpr hmem
  rcases ho : alookup m s with _ | v
  · rw [ho] at hk
    simp at hk
  · simp only [statusCountStep, hs, dIncr, dIncrBy, ho, Option.map_some']
    exact CountInv_total_incr _ _ _
      (CountInv_aset_present m seen t s (v + 1) hinv (by simp [ho]) hnt)

theorem statusCountStep_inv_new (m : List (String × Nat))
    (seen : List String) (t : Nat) (p : Proc) (s : String)
    (hs : p.statusRes = .ok s) (hnt : s ≠ "total") (hinv : CountInv m seen t)
    (hmem : s ∉ seen) : CountInv (statusCountStep m p) (s :: seen) t := by
  have hk : alookup m s = none := by
    rcases ho : alookup m s with _ | v
    · rfl
    · exact absurd ((hinv.2 s hnt).mp (by simp [ho])) hmem
  simp only [statusCountStep, hs, dIncr, dIncrBy, hk, Option.map_none']
  exact CountInv_aset_new m seen t s hinv hk hnt

theorem statusCountStep_err (m : List (String × Nat)) (p : Proc)
    (h : p.statusRes = .error ()) : statusCountStep m p = m := by
  simp [statusCountStep, h]

theorem threadCountStep_inv (m : List (String × Nat)) (seen : List String)
    (t : Nat) (p : Proc) (hinv : CountInv m seen t) :
    CountInv (threadCountStep m p) seen t := by
  rcases hn : p.numThreadsRes with e | n
  · simpa [threadCountStep, hn] using hinv
  · simp only [threadCountStep, hn]
    rcases ho : dIncrBy m "thread" n with _ | m'
    · exact hinv
    · obtain ⟨v, hv, hm'⟩ := Option.map_eq_some'.mp ho
      rw [← hm']
      exact CountInv_aset_present m seen t "thread" (v + n) hinv
        (by simp [hv]) (by decide)

theorem fetchCmdline_processcount (st : PState) (p : Proc) :
    (fetchCmdline st p).1.processcount = st.processcount := by
  rcases h : alookup st.cmdline_cache p.pid with _ | c
  · simp [fetchCmdline, h]
  · simp [fetchCmdline, h]

theorem fetchIo_processcount (pf : Platform) (st : PState) (p : Proc) :
    (fetchIo pf st p).1.processcount = st.processcount := by
  by_cases hm : pf.is_mac = true
  · simp [fetchIo, hm]
  · rcases hio : p.ioRes with e | rw
    · simp [fetchIo, hm, hio]
    · simp [fetchIo, hm, hio]

theorem fetchUsername_processcount (st : PState) (p : Proc) :
    (fetchUsername st p).1.processcount = st.processcount := by
  rcases h : alookup st.username_cache p.pid with _ | u
  · simp [fetchUsername, h]
  · simp [fetchUsername, h]

theorem getProcessStats_processcount (pf : Platform) (st : PState) (p : Proc)
    (m std : Bool) :
    (getProcessStats pf st p m std).1.processcount = st.processcount := by
  cases m with
  | false =>
    cases std with
    | false => rfl
    | true =>
      simp only [getProcessStats, Bool.false_eq_true, if_false, if_true]
      rcases hs : p.statusRes with e | s
      · simp [hs, fetchUsername_processcount]
      · simp [hs, fetchUsername_processcount]
  | true =>
    rcases hb : p.basic with e | cm
    · simp [getProcessStats, hb]
    · by_cases hcm : (cm.1.isNone || cm.2.isNone) = true
      · simp [getProcessStats, hb, hcm]
      · cases std with
        | false =>
          simp [getProcessStats, hb, hcm, fetchIo_processcount,
            fetchCmdline_processcount]
        | true =>
          rcases hs : p.statusRes with e | s <;>
            simp [getProcessStats, hb, hcm, hs, fetchUsername_processcount,
              fetchIo_processcount, fetchCmdline_processcount]

theorem scanStep_cases (pf : Platform) (st : PState) (p : Proc)
    (st1 : PState) (d1 : List (Proc × ProcStat))
    (h : scanStep pf (st, []) p = .ok (st1, d1)) :
    (d1 = [] ∧ st1.processcount = st.processcount) ∨
    (∃ s : ProcStat, d1 = [(p, s)] ∧
      ((idleExcluded pf s.name = true ∧ st1.processcount = st.processcount) ∨
       (idleExcluded pf s.name = false ∧
        st1.processcount =
          threadCountStep (statusCountStep st.processcount p) p))) := by
  have hpc := getProcessStats_processcount pf st p true st.max_processes.isNone
  simp only [scanStep] at h
  by_cases hk : (st.no_kernel_threads && !pf.is_windows && p.gidsReal == 0)
      = true
  · rw [if_pos hk] at h
    cases h
    exact .inl ⟨rfl, rfl⟩
  · rw [if_neg hk] at h
    rcases hgs : (getProcessStats pf st p true st.max_processes.isNone).2
        with _ | s
    · simp only [hgs] at h
      cases h
      exact .inl ⟨rfl, hpc⟩
    · simp only [hgs] at h
      rcases hf : is_filtered
          (getProcessStats pf st p true st.max_processes.isNone).1 s.cmdline
          with e | fcmd
      · simp only [hf] at h
        exact Except.noConfusion h
      · simp only [hf] at h
        have hrest : ∀ fboth : Bool,
            (if fboth = true then Except.ok (ε := Unit)
                ((getProcessStats pf st p true st.max_processes.isNone).1,
                  ([] : List (Proc × ProcStat)))
              else
                if idleExcluded pf s.name = true then
                  Except.ok
                    ((getProcessStats pf st p true st.max_processes.isNone).1,
                      [] ++ [(p, s)])
                else
                  Except.ok
                    (countThread (countStatus
                        (getProcessStats pf st p true
                          st.max_processes.isNone).1 p) p,
                      [] ++ [(p, s)])) = .ok (st1, d1) →
            (d1 = [] ∧ st1.processcount = st.processcount) ∨
            (∃ s' : ProcStat, d1 = [(p, s')] ∧
              ((idleExcluded pf s'.name = true ∧
                  st1.processcount = st.processcount) ∨
               (idleExcluded pf s'.name = false ∧
                st1.processcount =
                  threadCountStep (statusCountStep st.processcount p) p))) := by
          intro fboth hfb
          cases fboth with
          | true =>
            rw [if_pos rfl] at hfb
            cases hfb
            exact .inl ⟨rfl, hpc⟩
          | false =>
            rw [if_neg (by simp)] at hfb
            by_cases hex : idleExcluded pf s.name = true
            · rw [if_pos hex] at hfb
              cases hfb
              exact .inr ⟨s, by simp, .inl ⟨hex, hpc⟩⟩
            · rw [if_neg hex] at hfb
              cases hfb
              refine .inr ⟨s, by simp, .inr ⟨by simpa using hex, ?_⟩⟩
              simp [countThread, countStatus, hpc]
        cases fcmd with
        | false =>
          simp only [Bool.false_eq_true, if_false] at h
          exact hrest false h
        | true =>
          simp only [if_true] at h
          rcases hf2 : is_filtered
              (getProcessStats pf st p true st.max_processes.isNone).1 s.name
              with e2 | fname
          · simp only [hf2] at h
            exact Except.noConfusion h
          · simp only [hf2] at h
            exact hrest fname h

theorem scanStep_dict (pf : Platform) (st : PState)
    (d : List (Proc × ProcStat)) (p : Proc) :
    scanStep pf (st, d) p =
      (scanStep pf (st, []) p).map (fun r => (r.1, d ++ r.2)) := by
  simp only [scanStep]
  by_cases hk : (st.no_kernel_threads && !pf.is_windows && p.gidsReal == 0)
      = true
  · rw [if_pos hk, if_pos hk]
    simp [Except.map]
  · rw [if_neg hk, if_neg hk]
    rcases hgs : (getProcessStats pf st p true st.max_processes.isNone).2
        with _ | s
    · simp [Except.map]
    · simp only []
      rcases hf : is_filtered
          (getProcessStats pf st p true st.max_processes.isNone).1 s.cmdline
          with e | fcmd
      · simp [Except.map]
      · simp only []
        cases fcmd with
        | false =>
          simp only [Bool.false_eq_true, if_false]
          by_cases hex : idleExcluded pf s.name = true
          · rw [if_pos hex, if_pos hex]
            simp [Except.map]
          · rw [if_neg hex, if_neg hex]
            simp [Except.map]
        | true =>
          simp only [if_true]
          rcases hf2 : is_filtered
              (getProcessStats pf st p true st.max_processes.isNone).1 s.name
              with e2 | fname
          · simp [Except.map]
          · simp only []
            cases fname with
            | true => simp [Except.map]
            | false =>
              simp only [Bool.false_eq_true, if_false]
              by_cases hex : idleExcluded pf s.name = true
              · rw [if_pos hex, if_pos hex]
                simp [Except.map]
              · rw [if_neg hex, if_neg hex]
                simp [Except.map]

theorem scanLoop_dict (pf : Platform) :
    ∀ (procs : List Proc) (st : PState) (d : List (Proc × ProcStat)),
      scanLoop pf procs (st, d) =
        (scanLoop pf procs (st, [])).map (fun r => (r.1, d ++ r.2)) := by
  intro procs
  induction procs with
  | nil => intro st d; simp [scanLoop, Except.map]
  | cons p rest ih =>
    intro st d
    simp only [scanLoop]
    rw [scanStep_dict]
    rcases hs : scanStep pf (st, []) p with e | acc'
    · simp [Except.map]
    · obtain ⟨st1, d1⟩ := acc'
      simp only [Except.map]
      rw [ih st1 (d ++ d1), ih st1 d1]
      rcases hl : scanLoop pf rest (st1, []) with e2 | r2
      · simp [Except.map]
      · simp [Except.map, List.append_assoc]

theorem eventStatuses_append (pf : Platform)
    (a b : List (Proc × ProcStat)) :
    eventStatuses pf (a ++ b) = eventStatuses pf a ++ eventStatuses pf b := by
  simp [eventStatuses, List.filterMap_append]

theorem scanLoop_total (pf : Platform) :
    ∀ (procs : List Proc) (st : PState) (seen : List String) (t : Nat)
      (st' : PState) (dnew : List (Proc × ProcStat)),
      (∀ p ∈ procs, p.statusRes ≠ .ok "total") →
      CountInv st.processcount seen t →
      scanLoop pf procs (st, []) = .ok (st', dnew) →
      alookup st'.processcount "total" =
        some (t + specTotalFold seen (eventStatuses pf dnew)) := by
  intro procs
  induction procs with
  | nil =>
    intro st seen t st' dnew hstat hinv hloop
    simp only [scanLoop] at hloop
    cases hloop
    simp [eventStatuses, specTotalFold, hinv.1]
  | cons p rest ih =>
    intro st seen t st' dnew hstat hinv hloop
    simp only [scanLoop] at hloop
    rcases hs1 : scanStep pf (st, []) p with e | acc1
    · simp only [hs1] at hloop
      exact Except.noConfusion hloop
    · simp only [hs1] at hloop
      obtain ⟨st1, d1⟩ := acc1
      rw [scanLoop_dict pf rest st1 d1] at hloop
      rcases hl : scanLoop pf rest (st1, []) with e2 | r2
      · simp only [hl, Except.map] at hloop
        exact Except.noConfusion hloop
      · simp only [hl, Except.map] at hloop
        obtain ⟨st2, drest⟩ := r2
        cases hloop
        have hstat' : ∀ q ∈ rest, q.statusRes ≠ .ok "total" :=
          fun q hq => hstat q (by simp [hq])
        rw [eventStatuses_append]
        rcases scanStep_cases pf st p st1 d1 hs1 with
          ⟨hd1, hcnt⟩ | ⟨s, hd1, hrest⟩
        · subst hd1
          have hinv1 : CountInv st1.processcount seen t := by
            rw [hcnt]
            exact hinv
          simpa [eventStatuses] using ih st1 seen t st2 drest hstat' hinv1 hl
        · subst hd1
          rcases hrest with ⟨hex, hcnt⟩ | ⟨hex, hcnt⟩
          · have hinv1 : CountInv st1.processcount seen t := by
              rw [hcnt]
              exact hinv
            simpa [eventStatuses, hex] using
              ih st1 seen t st2 drest hstat' hinv1 hl
          · rcases hsr : p.statusRes with e3 | sv
            · have hinv1 : CountInv st1.processcount seen t := by
                rw [hcnt, statusCountStep_err _ _ (by
                  cases e3
                  exact hsr)]
                exact threadCountStep_inv _ _ _ _ hinv
              simpa [eventStatuses, hex, hsr, Except.toOption] using
                ih st1 seen t st2 drest hstat' hinv1 hl
            · have hnt : sv ≠ "total" := by
                intro hc
                subst hc
                exact hstat p (by simp) hsr
              by_cases hmem : sv ∈ seen
              · have hinv1 : CountInv st1.processcount seen (t + 1) := by
                  rw [hcnt]
                  exact threadCountStep_inv _ _ _ _
                    (statusCountStep_inv_mem _ _ _ _ _ hsr hnt hinv hmem)
                have hih := ih st1 seen (t + 1) st2 drest hstat' hinv1 hl
                rw [hih]
                simp only [eventStatuses, List.filterMap_cons, hex,
                  Bool.false_eq_true, if_false, hsr, Except.toOption]
                simp [specTotalFold, hmem]
                omega
              · have hinv1 : CountInv st1.processcount (sv :: seen) t := by
                  rw [hcnt]
                  exact threadCountStep_inv _ _ _ _
                    (statusCountStep_inv_new _ _ _ _ _ hsr hnt hinv hmem)
                have hih := ih st1 (sv :: seen) t st2 drest hstat' hinv1 hl
                rw [hih]
                simp only [eventStatuses, List.filterMap_cons, hex,
                  Bool.false_eq_true, if_false, hsr, Except.toOption]
                simp [specTotalFold, hmem]

/-- C1 amended: after `update`, the `total` counter equals the number of
retained, non-excluded records whose status string already had a counter
(`running`/`sleeping`/`thread` or a status seen on an earlier retained
record this cycle) — *not* the number of records in the cycle's output:
the first record of each other status string only creates its per-status
counter, idle-excluded records stay in the output but are never counted,
and records whose status query fails are not counted.  (Statuses never
collide with the `total` key in practice, hence the hypothesis.) -/
theorem update_total_spec (pf : Platform) (procs : List Proc) (st : PState)
    (hstat : ∀ p ∈ procs, p.statusRes ≠ .ok "total") (st' : PState)
    (dict : List (Proc × ProcStat))
    (hup : update pf procs st = .ok (st', dict)) :
    alookup st'.processcount "total" =
      some (specTotalFold initialSeen (eventStatuses pf dict)) := by
  simp only [update] at hup
  by_cases hd : st.disable_tag = true
  · rw [if_pos (by simpa using hd)] at hup
    cases hup
    simp [eventStatuses, specTotalFold, initialProcessCount, alookup]
  · rw [if_neg (by simpa using hd)] at hup
    have h := scanLoop_total pf procs
      { st with processlist := [], processcount := initialProcessCount }
      initialSeen 0 st' dict hstat (by simpa using CountInv_initial) hup
    simpa using h

/-- Witness: one retained running process — `total` is 1 and matches the
spec-side fold over the single status event. -/
theorem update_total_spec_witness :
    (∀ p ∈ [procRunning], p.statusRes ≠ .ok "total") ∧
      alookup stAfterRunning.processcount "total" =
        some (specTotalFold initialSeen
          (eventStatuses linuxPlatform [(procRunning, psRunningRecord)])) := by
  refine ⟨by decide, ?_⟩
  exact update_total_spec linuxPlatform [procRunning] {} (by decide)
    stAfterRunning [(procRunning, psRunningRecord)] rfl

/-- C1 counterexample: one retained, non-excluded process whose status is
`disk-sleep` (no pre-existing counter): the cycle's output holds one
record but `total` stays 0 — the claimed equality fails. -/
theorem update_total_not_output_count :
    (update linuxPlatform [procDiskSleep] {}).map
        (fun r => (alookup r.1.processcount "total", r.2.length)) =
      .ok (some 0, 1) ∧ (0 : Nat) ≠ 1 :=
  ⟨rfl, by decide⟩

end Glances
